import Mathlib

/-!
Verification of the ZoKrates reducer pass
(`zokrates_core/src/static_analysis/reducer/mod.rs`).

The reducer turns a typed program into a single self-contained `main`
function: shallow SSA renaming, call inlining, loop unrolling and a
deferred substitution map that is path-compressed (`canonicalize`) and
applied (`Sub::fold_name`) at the end.  This file embeds the data model
and the operations of that pass and proves the specification's claims
about them.  Rust `HashMap`s are embedded as association lists with
first-match lookup; the recursion of `canonicalize_sub`, which the
source performs without fuel, is embedded with an explicit fuel
parameter returning `Option` (`none` = the source would not have
terminated at that depth).
-/

set_option maxHeartbeats 1000000

/-- Core identifier: a user-written name or a synthesised `Call(n)` tag. -/
inductive CoreIdentifier where
  | source : String → CoreIdentifier
  | call : Nat → CoreIdentifier
deriving DecidableEq, Repr

/-- An SSA identifier: a core identifier plus a version number. -/
structure Identifier where
  id : CoreIdentifier
  version : Nat
deriving DecidableEq, Repr

/-- The per-identifier substitution map `HashMap<usize, usize>`. -/
abbrev SubMap := List (Nat × Nat)

/-- The SSA version map `Versions<'ast> = HashMap<CoreIdentifier, usize>`. -/
abbrev Versions := List (CoreIdentifier × Nat)

/-- `Substitutions(HashMap<CoreIdentifier, HashMap<usize, usize>>)`. -/
abbrev Substitutions := List (CoreIdentifier × SubMap)

/-- First-match lookup in a `SubMap` (embedding of `HashMap::get`). -/
def lookupN : SubMap → Nat → Option Nat
  | [], _ => none
  | (a, b) :: t, k => if a = k then some b else lookupN t k

/-- First-match lookup in a `Versions` map. -/
def lookupV : Versions → CoreIdentifier → Option Nat
  | [], _ => none
  | (a, b) :: t, k => if a = k then some b else lookupV t k

/-- First-match lookup of the inner map of a `Substitutions`. -/
def lookupSubs : Substitutions → CoreIdentifier → Option SubMap
  | [], _ => none
  | (a, b) :: t, k => if a = k then some b else lookupSubs t k

/-- Two-level lookup `substitutions.0.get(id).and_then(|sub| sub.get(v))`. -/
def lookupSub (S : Substitutions) (x : CoreIdentifier) (v : Nat) : Option Nat :=
  (lookupSubs S x).bind (fun m => lookupN m v)

/-- `HashMap::insert` on a `SubMap`: replace the first binding or append. -/
def insertN : SubMap → Nat → Nat → SubMap
  | [], k, v => [(k, v)]
  | (a, b) :: t, k, v => if a = k then (k, v) :: t else (a, b) :: insertN t k v

/-- `HashMap::insert` on a `Versions` map. -/
def insertV : Versions → CoreIdentifier → Nat → Versions
  | [], k, v => [(k, v)]
  | (a, b) :: t, k, v => if a = k then (k, v) :: t else (a, b) :: insertV t k v

/-- `substitutions.0.entry(id).or_default()` followed by an inner insert:
the inner map of `x` gets the binding `k ↦ v`, other entries unchanged. -/
def insertSub : Substitutions → CoreIdentifier → Nat → Nat → Substitutions
  | [], x, k, v => [(x, [(k, v)])]
  | (y, m) :: t, x, k, v =>
    if y = x then (y, insertN m k v) :: t else (y, m) :: insertSub t x k v

/-- `register(substitutions, substitute, with)` from the source: for every
core-id present in both snapshots whose versions differ, insert the edge
`substitute[x] ↦ (sub.get(with[x]) ∨ with[x])` into `x`'s inner map. -/
def register (S : Substitutions) (substitute withV : Versions) : Substitutions :=
  substitute.foldl
    (fun S p =>
      match lookupV withV p.1 with
      | none => S
      | some tov =>
        if p.2 = tov then S
        else insertSub S p.1 p.2 ((lookupSub S p.1 tov).getD tov))
    S

/-- Walk `n` edges of a `SubMap` chain, stopping early at a terminal. -/
def followN (sub : SubMap) : Nat → Nat → Nat
  | 0, v => v
  | n + 1, v =>
    match lookupN sub v with
    | none => v
    | some w => followN sub n w

/-- The recursive cache construction of `canonicalize_sub`, with fuel.
`none` means the source recursion would still be running at that depth. -/
def add_to_cache (sub : SubMap) : Nat → SubMap → Nat → Option SubMap
  | 0, _, _ => none
  | fuel + 1, cache, k =>
    match lookupN cache k with
    | some _ => some cache
    | none =>
      match lookupN sub k with
      | none => some cache
      | some v =>
        match add_to_cache sub fuel cache v with
        | none => none
        | some cache1 => some ((k, (lookupN cache1 v).getD v) :: cache1)

/-- `sub.keys().fold(HashMap::new(), add_to_cache)` over a key list. -/
def canonFold (sub : SubMap) (fuel : Nat) : List Nat → SubMap → Option SubMap
  | [], cache => some cache
  | k :: ks, cache =>
    match add_to_cache sub fuel cache k with
    | none => none
    | some cache1 => canonFold sub fuel ks cache1

/-- `canonicalize_sub`: path-compress one per-identifier map. -/
def canonicalize_sub (fuel : Nat) (sub : SubMap) : Option SubMap :=
  canonFold sub fuel (sub.map Prod.fst) []

/-- `Substitutions::canonicalize`: path-compress every inner map.  A fuel
of `sub.length + 1` is enough for every acyclic inner map (proved below),
so `none` occurs exactly when an inner map makes the source diverge. -/
def canonicalize : Substitutions → Option Substitutions
  | [] => some []
  | (x, sub) :: t =>
    match canonicalize_sub (sub.length + 1) sub, canonicalize t with
    | some s, some t' => some ((x, s) :: t')
    | _, _ => none

/-- `Sub::fold_name`: rewrite one identifier's version through the map,
leaving it unchanged when either lookup misses. -/
def fold_name (S : Substitutions) (i : Identifier) : Identifier :=
  ⟨i.id,
    ((lookupSubs S i.id).map
      (fun sub => (lookupN sub i.version).getD i.version)).getD i.version⟩

/-- A chain in `sub` starting from `v` reaches the terminal node `t`. -/
def ReachesTerminal (sub : SubMap) (v t : Nat) : Prop :=
  ∃ n, followN sub n v = t ∧ lookupN sub t = none

/-- Every chain of the per-identifier version graph terminates. -/
def Acyclic (sub : SubMap) : Prop :=
  ∀ v, ∃ n, lookupN sub (followN sub n v) = none

/-- Invariant of the `canonicalize_sub` cache: every cached binding maps a
node to the terminal of its chain. -/
def CacheOK (sub cache : SubMap) : Prop :=
  ∀ k t, lookupN cache k = some t → ReachesTerminal sub k t

/-! ## The typed IR

The AST/IR types live in the external `typed_absy` crate; the spec's data
model section describes them (identifier, variable, typed expression,
statement, function, module, program) and the reducer only requires that
they are traversable by a generic fold.  They are embedded here with a
representative expression language.  -/

/-- A type of the typed IR. -/
inductive Ty where
  | fieldElement : Ty
  | boolean : Ty
  | uint : Nat → Ty
  | array : Ty → Nat → Ty
deriving DecidableEq, Repr

/-- A function signature (inputs and outputs). -/
structure Signature where
  inputs : List Ty
  outputs : List Ty
deriving DecidableEq, Repr

/-- `DeclarationFunctionKey`: fully-qualified name plus signature. -/
structure DeclarationFunctionKey where
  module : String
  id : String
  signature : Signature
deriving DecidableEq, Repr

/-- The flat-embed registry: the seven opaque built-in primitives. -/
inductive FlatEmbed where
  | unpack : Nat → FlatEmbed
  | u8ToBits : FlatEmbed
  | u16ToBits : FlatEmbed
  | u32ToBits : FlatEmbed
  | u8FromBits : FlatEmbed
  | u16FromBits : FlatEmbed
  | u32FromBits : FlatEmbed
deriving DecidableEq, Repr

/-- Modelled from the spec: the embed name used in a flat embed's key.
`FlatEmbed::key_in_module` lives in the external `embed` module; the spec
says each embed is keyed by `{module_id, embed name, concrete signature}`
computed deterministically from the embed kind, so the names are the
distinct per-kind identifiers. -/
def FlatEmbed.idString : FlatEmbed → String
  | .unpack _ => ("_UNPACK")
  | .u8ToBits => ("_U8_TO_BITS")
  | .u16ToBits => ("_U16_TO_BITS")
  | .u32ToBits => ("_U32_TO_BITS")
  | .u8FromBits => ("_U8_FROM_BITS")
  | .u16FromBits => ("_U16_FROM_BITS")
  | .u32FromBits => ("_U32_FROM_BITS")

/-- Modelled from the spec: the concrete signature of a flat embed,
computed deterministically from the embed kind. -/
def FlatEmbed.sigOf : FlatEmbed → Signature
  | .unpack bits => ⟨[Ty.fieldElement], [Ty.array Ty.boolean bits]⟩
  | .u8ToBits => ⟨[Ty.uint 8], [Ty.array Ty.boolean 8]⟩
  | .u16ToBits => ⟨[Ty.uint 16], [Ty.array Ty.boolean 16]⟩
  | .u32ToBits => ⟨[Ty.uint 32], [Ty.array Ty.boolean 32]⟩
  | .u8FromBits => ⟨[Ty.array Ty.boolean 8], [Ty.uint 8]⟩
  | .u16FromBits => ⟨[Ty.array Ty.boolean 16], [Ty.uint 16]⟩
  | .u32FromBits => ⟨[Ty.array Ty.boolean 32], [Ty.uint 32]⟩

/-- Modelled from the spec: `FlatEmbed::key_in_module`. -/
def FlatEmbed.key_in_module (m : String) (e : FlatEmbed) : DeclarationFunctionKey :=
  ⟨m, e.idString, e.sigOf⟩

/-- A typed variable: identifier plus type. -/
structure Variable where
  id : Identifier
  ty : Ty
deriving DecidableEq, Repr

/-- A generics assignment: generic parameter name to concrete value. -/
abbrev Generics := List (String × Nat)

/-- A typed expression.  `funCall` carries the expression's own type as
the single expected output type of the call. -/
inductive Exp where
  | fieldValue : Nat → Exp
  | boolValue : Bool → Exp
  | uintValue : Nat → Nat → Exp
  | ident : Ty → Identifier → Exp
  | add : Exp → Exp → Exp
  | arr : Ty → List Exp → Exp
  | funCall : Ty → DeclarationFunctionKey → List Exp → Exp

/-- A typed statement. -/
inductive Stmt where
  | definition : Variable → Exp → Stmt
  | multipleDefinition :
      List Variable → DeclarationFunctionKey → List Exp → List Ty → Stmt
  | ret : List Exp → Stmt
  | forLoop : Variable → Exp → Exp → List Stmt → Stmt
  | pushCallLog : DeclarationFunctionKey → Generics → Stmt
  | popCallLog : Stmt

/-- A typed function. -/
structure TypedFunction where
  generics : List String
  arguments : List Variable
  statements : List Stmt
  signature : Signature

/-- A module symbol: a user function or a flat embed. -/
inductive TypedFunctionSymbol where
  | here : TypedFunction → TypedFunctionSymbol
  | flat : FlatEmbed → TypedFunctionSymbol

/-- A typed module: its function map, embedded as an association list in
the (run-dependent) iteration order of the `HashMap`. -/
structure TypedModule where
  functions : List (DeclarationFunctionKey × TypedFunctionSymbol)

/-- A typed program: entry module id plus module map. -/
structure TypedProgram where
  main : String
  modules : List (String × TypedModule)

/-- First-match lookup in the module map. -/
def lookupMod : List (String × TypedModule) → String → Option TypedModule
  | [], _ => none
  | (a, b) :: t, k => if a = k then some b else lookupMod t k

/-- Replace the first binding of `k` in the module map. -/
def updateMod : List (String × TypedModule) → String → TypedModule → List (String × TypedModule)
  | [], _, _ => []
  | (a, b) :: t, k, m => if a = k then (a, m) :: t else (a, b) :: updateMod t k m

/-- `embeds_in_module`: the seven flat-embed symbols added to the entry
module, in the order the source lists them.  `bits` is the field's
required bit width (`T::get_required_bits()`). -/
def embeds_in_module (bits : Nat) (m : String) :
    List (DeclarationFunctionKey × TypedFunctionSymbol) :=
  [ (FlatEmbed.key_in_module m (.unpack bits), .flat (.unpack bits)),
    (FlatEmbed.key_in_module m .u32FromBits, .flat .u32FromBits),
    (FlatEmbed.key_in_module m .u16FromBits, .flat .u16FromBits),
    (FlatEmbed.key_in_module m .u8FromBits, .flat .u8FromBits),
    (FlatEmbed.key_in_module m .u32ToBits, .flat .u32ToBits),
    (FlatEmbed.key_in_module m .u16ToBits, .flat .u16ToBits),
    (FlatEmbed.key_in_module m .u8ToBits, .flat .u8ToBits) ]

/-! ## The reduction driver

`reduce_program` / `reduce_function` / `Reducer::fold_statement` from the
source.  The external collaborators — `inline_call` (module `inline`),
`ShallowTransformer` (module `shallow_ssa`) and the propagator — are
taken as parameters, so every theorem below holds for every behaviour of
those collaborators.  Rust panics (`unwrap`, `unreachable!`, `assert!`,
out-of-bounds indexing) are the `panicked` outcome; the unbounded outer
fixed-point loop and the unbounded `canonicalize` recursion are run on
fuel, with `diverge` for exhaustion. -/

/-- The error surface of the reducer. -/
inductive Error where
  | incompatible : String → String → Error
  | genericsInMain : Error
deriving DecidableEq, Repr

/-- Result of a step of the embedded driver. -/
inductive Outcome (α : Type) where
  | ok : α → Outcome α
  | err : Error → Outcome α
  | panicked : Outcome α
  | diverge : Outcome α

/-- Sequencing of driver steps. -/
def Outcome.bind : Outcome α → (α → Outcome β) → Outcome β
  | .ok a, f => f a
  | .err e, _ => .err e
  | .panicked, _ => .panicked
  | .diverge, _ => .diverge

/-- The inliner's call cache `(concrete key, arguments) ↦ results`. -/
abbrev CallCache := List ((DeclarationFunctionKey × List Exp) × List Exp)

/-- The result of `inline_call`: `Ok(Complete)`, `Ok(Incomplete)`, or the
three `InlineError` variants matched by the driver. -/
inductive InlineOutcome where
  | complete : List Stmt → List Exp → InlineOutcome
  | incomplete : List Stmt → List Exp → List Versions → InlineOutcome
  | generic : String → String → InlineOutcome
  | nonConstant : DeclarationFunctionKey → List Exp → List Ty → InlineOutcome
  | flat : FlatEmbed → List Exp → List Ty → InlineOutcome

/-- State of a `ShallowTransformer` built with `with_versions`: the shared
version map, the recorded `for_loop_backups`, and the `blocked` flag. -/
structure SState where
  versions : Versions
  backups : List Versions
  blocked : Bool

/-- The state threaded through `Reducer`'s statement folder. -/
structure RState where
  statement_buffer : List Stmt
  for_loop_versions : List Versions
  for_loop_versions_after : List Versions
  versions : Versions
  substitutions : Substitutions
  cache : CallCache
  complete : Bool

/-- The external collaborators a reduction runs against. -/
structure Params where
  ic : DeclarationFunctionKey → List Exp → List Ty → CallCache → Versions →
    (CallCache × Versions × InlineOutcome)
  stepStmt : SState → Stmt → SState × List Stmt
  mainId : String

/-- `versions.values_mut().for_each(|v| *v = *v + 1)`. -/
def bumpAll (V : Versions) : Versions :=
  V.map (fun p => (p.1, p.2 + 1))

/-- One `ShallowTransformer` pass over a statement list: fold each
statement, concatenating the outputs (`map … .flatten()`). -/
def runTransformer (step : SState → Stmt → SState × List Stmt) :
    SState → List Stmt → SState × List Stmt
  | s, [] => (s, [])
  | s, stmt :: rest =>
    let r1 := step s stmt
    let r2 := runTransformer step r1.1 rest
    (r2.1, r1.2 ++ r2.2)

/-- `for index in from..to`: prepend the loop-variable binding and fold
the cloned body through the (persisting) transformer, `count` times. -/
def unrollLoop (step : SState → Stmt → SState × List Stmt) (v : Variable)
    (body : List Stmt) : SState → Nat → Nat → SState × List Stmt
  | s, _, 0 => (s, [])
  | s, idx, count + 1 =>
    let r1 := runTransformer step s (Stmt.definition v (Exp.uintValue 32 idx) :: body)
    let r2 := unrollLoop step v body r1.1 (idx + 1) count
    (r2.1, r1.2 ++ r2.2)

mutual

/-- `ResultFolder::fold_expression` for the `Reducer`: intercept function
calls, traverse everything else structurally. -/
def fold_expression (P : Params) : Nat → RState → Exp → Outcome (RState × Exp)
  | 0, _, _ => .diverge
  | _ + 1, st, .fieldValue n => .ok (st, .fieldValue n)
  | _ + 1, st, .boolValue b => .ok (st, .boolValue b)
  | _ + 1, st, .uintValue w n => .ok (st, .uintValue w n)
  | _ + 1, st, .ident t i => .ok (st, .ident t i)
  | fuel + 1, st, .add a b =>
    Outcome.bind (fold_expression P fuel st a) fun ra =>
    Outcome.bind (fold_expression P fuel ra.1 b) fun rb =>
    .ok (rb.1, .add ra.2 rb.2)
  | fuel + 1, st, .arr t es =>
    Outcome.bind (fold_expressions P fuel st es) fun r =>
    .ok (r.1, .arr t r.2)
  | fuel + 1, st, .funCall t k args =>
    fold_function_call P fuel st k args [t]

/-- Fold a list of expressions left to right. -/
def fold_expressions (P : Params) : Nat → RState → List Exp → Outcome (RState × List Exp)
  | 0, _, _ => .diverge
  | _ + 1, st, [] => .ok (st, [])
  | fuel + 1, st, e :: es =>
    Outcome.bind (fold_expression P fuel st e) fun r1 =>
    Outcome.bind (fold_expressions P fuel r1.1 es) fun r2 =>
    .ok (r2.1, r1.2 :: r2.2)

/-- `Reducer::fold_function_call`: fold the arguments, run the inliner,
and dispatch on its five outcomes exactly as the source does. -/
def fold_function_call (P : Params) :
    Nat → RState → DeclarationFunctionKey → List Exp → List Ty → Outcome (RState × Exp)
  | 0, _, _, _, _ => .diverge
  | fuel + 1, st, k, args, outTys =>
    Outcome.bind (fold_expressions P fuel st args) fun r =>
    let st := r.1
    match P.ic k r.2 outTys st.cache st.versions with
    | (cache, versions, .complete stmts exprs) =>
      match exprs.head? with
      | none => .panicked
      | some e =>
        .ok ({ st with
                 cache := cache,
                 versions := versions,
                 statement_buffer := st.statement_buffer ++ stmts }, e)
    | (cache, versions, .incomplete stmts exprs delta) =>
      match exprs.head? with
      | none => .panicked
      | some e =>
        .ok ({ st with
                 cache := cache,
                 versions := versions,
                 complete := false,
                 statement_buffer := st.statement_buffer ++ stmts,
                 for_loop_versions_after := st.for_loop_versions_after ++ delta }, e)
    | (_, _, .generic decl conc) => .err (.incompatible decl conc)
    | (cache, versions, .nonConstant k' args' outTys') =>
      .ok ({ st with cache := cache, versions := versions, complete := false },
        .funCall (outTys'.headD Ty.fieldElement) k' args')
    | (cache, versions, .flat embed args' outTys') =>
      match outTys'.head? with
      | none => .panicked
      | some t0 =>
        let newv : Nat :=
          match lookupV versions (.call 0) with
          | some n => n + 1
          | none => 0
        let var : Variable := ⟨⟨.call 0, newv⟩, t0⟩
        .ok ({ st with
                 cache := cache,
                 versions := insertV versions (.call 0) newv,
                 statement_buffer := st.statement_buffer ++
                   [.multipleDefinition [var] (FlatEmbed.key_in_module P.mainId embed)
                     args' outTys'] },
          .ident t0 ⟨.call 0, newv⟩)

/-- The body of `Reducer::fold_statement`, before the buffer drain. -/
def fold_statement_cases (P : Params) : Nat → RState → Stmt → Outcome (RState × List Stmt)
  | 0, _, _ => .diverge
  | fuel + 1, st, .multipleDefinition vs k args outTys =>
    Outcome.bind (fold_expressions P fuel st args) fun r =>
    let st := r.1
    match P.ic k r.2 outTys st.cache st.versions with
    | (cache, versions, .complete stmts exprs) =>
      if vs.length = exprs.length then
        .ok ({ st with cache := cache, versions := versions },
          stmts ++ (vs.zip exprs).map (fun p => Stmt.definition p.1 p.2))
      else .panicked
    | (cache, versions, .incomplete stmts exprs delta) =>
      if vs.length = exprs.length then
        .ok ({ st with
                 cache := cache,
                 versions := versions,
                 complete := false,
                 for_loop_versions_after := st.for_loop_versions_after ++ delta },
          stmts ++ (vs.zip exprs).map (fun p => Stmt.definition p.1 p.2))
      else .panicked
    | (_, _, .generic decl conc) => .err (.incompatible decl conc)
    | (cache, versions, .nonConstant k' args' outTys') =>
      .ok ({ st with cache := cache, versions := versions, complete := false },
        [.multipleDefinition vs k' args' outTys'])
    | (cache, versions, .flat embed args' outTys') =>
      .ok ({ st with cache := cache, versions := versions },
        [.multipleDefinition vs (FlatEmbed.key_in_module P.mainId embed) args' outTys'])
  | _ + 1, st, .forLoop v lo hi body =>
    match st.for_loop_versions with
    | [] => .panicked
    | versions_before :: rest =>
      let st := { st with for_loop_versions := rest }
      match lo, hi with
      | .uintValue _ lov, .uintValue _ hiv =>
        let bumped := bumpAll st.versions
        let subs1 := register st.substitutions bumped versions_before
        let versions_after := versions_before.map (fun p => (p.1, p.2 + 2))
        let s0 : SState := ⟨bumped, [], false⟩
        let r := unrollLoop P.stepStmt v body s0 lov (hiv - lov)
        let subs2 := register subs1 versions_after r.1.versions
        .ok ({ st with
                 versions := r.1.versions,
                 substitutions := subs2,
                 for_loop_versions_after := st.for_loop_versions_after ++ r.1.backups,
                 complete := st.complete && !r.1.blocked }, r.2)
      | lo, hi =>
        .ok ({ st with
                 complete := false,
                 for_loop_versions_after := st.for_loop_versions_after ++ [versions_before] },
          [.forLoop v lo hi body])
  | fuel + 1, st, .definition v e =>
    Outcome.bind (fold_expression P fuel st e) fun r =>
    .ok (r.1, [.definition v r.2])
  | fuel + 1, st, .ret es =>
    Outcome.bind (fold_expressions P fuel st es) fun r =>
    .ok (r.1, [.ret r.2])
  | _ + 1, st, .pushCallLog k g => .ok (st, [.pushCallLog k g])
  | _ + 1, st, .popCallLog => .ok (st, [.popCallLog])

/-- `Reducer::fold_statement`: run the cases, then drain the statement
buffer in front of the result. -/
def fold_statement (P : Params) : Nat → RState → Stmt → Outcome (RState × List Stmt)
  | 0, _, _ => .diverge
  | fuel + 1, st, s =>
    Outcome.bind (fold_statement_cases P fuel st s) fun r =>
    .ok ({ r.1 with statement_buffer := [] }, r.1.statement_buffer ++ r.2)

/-- Fold every statement of a body, flattening the results. -/
def fold_statements (P : Params) : Nat → RState → List Stmt → Outcome (RState × List Stmt)
  | 0, _, _ => .diverge
  | _ + 1, st, [] => .ok (st, [])
  | fuel + 1, st, s :: rest =>
    Outcome.bind (fold_statement P fuel st s) fun r1 =>
    Outcome.bind (fold_statements P fuel r1.1 rest) fun r2 =>
    .ok (r2.1, r1.2 ++ r2.2)

end

/-! ## The `Sub` folder

`Sub::new(&substitutions).fold_function(f)` applies the substitution map
to every identifier occurrence through `fold_name`.  Modelled from the
spec: the generic `Folder` traversal lives in the external `typed_absy`
crate; the spec describes `apply(S, function)` as a fold rewriting every
identifier occurrence's version via `S` and touching nothing else, so
the traversal is embedded structurally over the IR above. -/

/-- Apply `fold_name` to a variable's identifier. -/
def sub_variable (S : Substitutions) (v : Variable) : Variable :=
  ⟨fold_name S v.id, v.ty⟩

mutual

/-- Apply the substitution map to every identifier of an expression. -/
def sub_expression (S : Substitutions) : Exp → Exp
  | .fieldValue n => .fieldValue n
  | .boolValue b => .boolValue b
  | .uintValue w n => .uintValue w n
  | .ident t i => .ident t (fold_name S i)
  | .add a b => .add (sub_expression S a) (sub_expression S b)
  | .arr t es => .arr t (sub_expressions S es)
  | .funCall t k args => .funCall t k (sub_expressions S args)

/-- `sub_expression` over a list. -/
def sub_expressions (S : Substitutions) : List Exp → List Exp
  | [] => []
  | e :: es => sub_expression S e :: sub_expressions S es

end

mutual

/-- Apply the substitution map to every identifier of a statement. -/
def sub_statement (S : Substitutions) : Stmt → Stmt
  | .definition v e => .definition (sub_variable S v) (sub_expression S e)
  | .multipleDefinition vs k args tys =>
    .multipleDefinition (vs.map (sub_variable S)) k (sub_expressions S args) tys
  | .ret es => .ret (sub_expressions S es)
  | .forLoop v lo hi body =>
    .forLoop (sub_variable S v) (sub_expression S lo) (sub_expression S hi)
      (sub_statements S body)
  | .pushCallLog k g => .pushCallLog k g
  | .popCallLog => .popCallLog

/-- `sub_statement` over a list. -/
def sub_statements (S : Substitutions) : List Stmt → List Stmt
  | [] => []
  | s :: rest => sub_statement S s :: sub_statements S rest

end

/-- `Sub::fold_function`: rewrite the arguments and the body. -/
def fold_function (S : Substitutions) (f : TypedFunction) : TypedFunction :=
  ⟨f.generics, f.arguments.map (sub_variable S), sub_statements S f.statements,
    f.signature⟩

/-! Observers used to state what `Sub` does: the in-order list of
identifier occurrences, and the identifier-erased skeleton. -/

mutual

/-- Identifier occurrences of an expression, in traversal order. -/
def idents_expression : Exp → List Identifier
  | .fieldValue _ => []
  | .boolValue _ => []
  | .uintValue _ _ => []
  | .ident _ i => [i]
  | .add a b => idents_expression a ++ idents_expression b
  | .arr _ es => idents_expressions es
  | .funCall _ _ args => idents_expressions args

/-- `idents_expression` over a list. -/
def idents_expressions : List Exp → List Identifier
  | [] => []
  | e :: es => idents_expression e ++ idents_expressions es

end

mutual

/-- Identifier occurrences of a statement, in traversal order. -/
def idents_statement : Stmt → List Identifier
  | .definition v e => v.id :: idents_expression e
  | .multipleDefinition vs _ args _ => vs.map (·.id) ++ idents_expressions args
  | .ret es => idents_expressions es
  | .forLoop v lo hi body =>
    v.id :: (idents_expression lo ++ idents_expression hi ++ idents_statements body)
  | .pushCallLog _ _ => []
  | .popCallLog => []

/-- `idents_statement` over a list. -/
def idents_statements : List Stmt → List Identifier
  | [] => []
  | s :: rest => idents_statement s ++ idents_statements rest

end

/-- Identifier occurrences of a function. -/
def idents_function (f : TypedFunction) : List Identifier :=
  f.arguments.map (·.id) ++ idents_statements f.statements

/-- Replace a variable's identifier by a fixed dummy. -/
def erase_variable (v : Variable) : Variable :=
  ⟨⟨.call 0, 0⟩, v.ty⟩

mutual

/-- The identifier-erased skeleton of an expression. -/
def erase_expression : Exp → Exp
  | .fieldValue n => .fieldValue n
  | .boolValue b => .boolValue b
  | .uintValue w n => .uintValue w n
  | .ident t _ => .ident t ⟨.call 0, 0⟩
  | .add a b => .add (erase_expression a) (erase_expression b)
  | .arr t es => .arr t (erase_expressions es)
  | .funCall t k args => .funCall t k (erase_expressions args)

/-- `erase_expression` over a list. -/
def erase_expressions : List Exp → List Exp
  | [] => []
  | e :: es => erase_expression e :: erase_expressions es

end

mutual

/-- The identifier-erased skeleton of a statement. -/
def erase_statement : Stmt → Stmt
  | .definition v e => .definition (erase_variable v) (erase_expression e)
  | .multipleDefinition vs k args tys =>
    .multipleDefinition (vs.map erase_variable) k (erase_expressions args) tys
  | .ret es => .ret (erase_expressions es)
  | .forLoop v lo hi body =>
    .forLoop (erase_variable v) (erase_expression lo) (erase_expression hi)
      (erase_statements body)
  | .pushCallLog k g => .pushCallLog k g
  | .popCallLog => .popCallLog

/-- `erase_statement` over a list. -/
def erase_statements : List Stmt → List Stmt
  | [] => []
  | s :: rest => erase_statement s :: erase_statements rest

end

/-- The identifier-erased skeleton of a function. -/
def erase_function (f : TypedFunction) : TypedFunction :=
  ⟨f.generics, f.arguments.map erase_variable, erase_statements f.statements,
    f.signature⟩

/-! ## `reduce_function` and `reduce_program` -/

/-- `ShallowTransformer::transform`'s output envelope. -/
inductive TOut where
  | complete : TypedFunction → TOut
  | incomplete : TypedFunction → List Versions → TOut

/-- The full set of external collaborators of `reduce_program`. -/
structure Oracle where
  inline_call : DeclarationFunctionKey → List Exp → List Ty → TypedProgram →
    CallCache → Versions → (CallCache × Versions × InlineOutcome)
  transform : TypedFunction → Generics → Versions → (Versions × TOut)
  stepStmt : SState → Stmt → SState × List Stmt
  propagate : TypedFunction → TypedFunction
  bits : Nat

/-- The fixed-point loop of `reduce_function`, on fuel.  `Reducer::new`
reverses the snapshot vector so that `Vec::pop` (which removes the last
element) yields the snapshots in their original order; the embedding
keeps the original order and pops the head, which is the same
consumption order. -/
def reduceLoop (P : Params) (propagate : TypedFunction → TypedFunction) :
    Nat → Versions → Substitutions → List Versions → TypedFunction →
    Outcome TypedFunction
  | 0, _, _, _, _ => .diverge
  | fuel + 1, versions, subs, flv, f =>
    let st0 : RState := ⟨[], flv, [], versions, subs, [], true⟩
    Outcome.bind (fold_statements P fuel st0 f.statements) fun r =>
    match r.1.for_loop_versions with
    | _ :: _ => .panicked
    | [] =>
      if r.1.complete then
        match canonicalize r.1.substitutions with
        | none => .diverge
        | some s' => .ok (fold_function s' { f with statements := r.2 })
      else
        reduceLoop P propagate fuel r.1.versions r.1.substitutions
          r.1.for_loop_versions_after
          (propagate (fold_function r.1.substitutions { f with statements := r.2 }))

/-- `reduce_function`: shallow SSA, then the fixed-point loop. -/
def reduce_function (P : Params)
    (transform : TypedFunction → Generics → Versions → (Versions × TOut))
    (propagate : TypedFunction → TypedFunction) (fuel : Nat)
    (f : TypedFunction) (generics : Generics) : Outcome TypedFunction :=
  match transform f generics [] with
  | (_, .complete f') => .ok f'
  | (versions', .incomplete f' backups) =>
    reduceLoop P propagate fuel versions' [] backups f'

/-- The entry lookup of `reduce_program`: the entry module, then the
first function whose id is `main`, which must be a `Here` symbol. -/
def entryHere (p : TypedProgram) : Option (DeclarationFunctionKey × TypedFunction) :=
  match lookupMod p.modules p.main with
  | none => none
  | some m =>
    match m.functions.find? (fun kv => kv.1.id == ("main")) with
    | none => none
    | some (_, .flat _) => none
    | some (k, .here f) => some (k, f)

/-- `reduce_program`.  The three `unwrap`/`unreachable!` sites of the
source are `panicked`; the entry module's function list stands in the
iteration order of the run. -/
def reduce_program (O : Oracle) (fuel : Nat) (p : TypedProgram) : Outcome TypedProgram :=
  match lookupMod p.modules p.main with
  | none => .panicked
  | some m =>
    match m.functions.find? (fun kv => kv.1.id == ("main")) with
    | none => .panicked
    | some (_, .flat _) => .panicked
    | some (main_key, .here main_function) =>
      let extended : TypedModule := ⟨m.functions ++ embeds_in_module O.bits p.main⟩
      let p' : TypedProgram := ⟨p.main, updateMod p.modules p.main extended⟩
      let P : Params := ⟨fun k a t c v => O.inline_call k a t p' c v, O.stepStmt, p.main⟩
      match main_function.generics with
      | [] =>
        Outcome.bind
          (reduce_function P O.transform O.propagate fuel main_function []) fun f' =>
        .ok ⟨p.main, [(p.main, ⟨(main_key, .here f') :: embeds_in_module O.bits p.main⟩)]⟩
      | _ :: _ => .err .genericsInMain


/-! ## Concrete instances used to exercise the theorems -/

/-- A concrete, trivially behaved set of collaborators. -/
def oracle0 : Oracle :=
  { inline_call := fun k a t _ c v => (c, v, .nonConstant k a t),
    transform := fun f _ v => (v, .complete f),
    stepStmt := fun s _ => (s, []),
    propagate := id,
    bits := 8 }

/-- Concrete collaborator parameters for exercising the statement folder. -/
def params0 : Params :=
  { ic := fun k a t c v => (c, v, .nonConstant k a t),
    stepStmt := fun s _ => (s, []),
    mainId := ("main") }

/-- A signature with no inputs and no outputs. -/
def sigA : Signature := ⟨[], []⟩

/-- A signature with one field input. -/
def sigB : Signature := ⟨[Ty.fieldElement], []⟩

/-- An entry key for a `main` declared with `sigA`. -/
def keyA : DeclarationFunctionKey := ⟨("main"), ("main"), sigA⟩

/-- An entry key for a `main` declared with `sigB`. -/
def keyB : DeclarationFunctionKey := ⟨("main"), ("main"), sigB⟩

/-- A generic `main` (one generic parameter). -/
def fGen : TypedFunction := ⟨[("K")], [], [], sigA⟩

/-- A non-generic `main`. -/
def fOk : TypedFunction := ⟨[], [], [], sigB⟩

/-- An entry module holding two functions named `main`, generic one first. -/
def progC8a : TypedProgram :=
  ⟨("main"), [(("main"), ⟨[(keyA, .here fGen), (keyB, .here fOk)]⟩)]⟩

/-- The same map contents in the opposite iteration order. -/
def progC8b : TypedProgram :=
  ⟨("main"), [(("main"), ⟨[(keyB, .here fOk), (keyA, .here fGen)]⟩)]⟩

/-- A well-formed single-`main` program. -/
def progC1 : TypedProgram := ⟨("main"), [(("main"), ⟨[(keyB, .here fOk)]⟩)]⟩

/-- A program whose entry module is missing. -/
def progNoModule : TypedProgram := ⟨("main"), []⟩

/-- A concrete acyclic substitution map: `1 ↦ 2 ↦ 3`. -/
def subC3 : Substitutions := [(.call 1, [(1, 2), (2, 3)])]

/-- A substitution state for exercising `register`: `5 ↦ 3` under id 7. -/
def regS0 : Substitutions := [(.call 7, [(5, 3)])]

/-- A `substitute` snapshot: id 7 at version 3. -/
def regA : Versions := [(.call 7, 3)]

/-- A `with` snapshot: id 7 at version 5. -/
def regB : Versions := [(.call 7, 5)]

/-- Two programs with the same module-map contents: same entry id, and
per module id the same function-map contents up to iteration order. -/
def ProgPerm (p q : TypedProgram) : Prop :=
  p.main = q.main ∧
  ∀ mid, match lookupMod p.modules mid, lookupMod q.modules mid with
    | some m1, some m2 => m1.functions.Perm m2.functions
    | none, none => True
    | _, _ => False

/-- A concrete loop variable. -/
def varC6 : Variable := ⟨⟨.call 3, 0⟩, Ty.fieldElement⟩

/-- A concrete reducer state whose snapshot stack holds one snapshot. -/
def stC6 : RState :=
  ⟨[], [[(.call 2, 0)]], [], [(.call 2, 0)], [], [], true⟩

/-- A key for a helper function `foo`. -/
def keyFoo : DeclarationFunctionKey := ⟨("main"), ("foo"), sigA⟩

/-- A helper function `foo`. -/
def fFoo : TypedFunction := ⟨[], [], [], sigA⟩

/-- A program whose entry module has exactly one `main`, plus a helper. -/
def progC8c : TypedProgram :=
  ⟨("main"), [(("main"), ⟨[(keyB, .here fOk), (keyFoo, .here fFoo)]⟩)]⟩

/-- The entry function list of `progC8c` in the other iteration order. -/
def fnsC8c2 : List (DeclarationFunctionKey × TypedFunctionSymbol) :=
  [(keyFoo, .here fFoo), (keyB, .here fOk)]

/-! ## Basic lemmas -/

@[simp] theorem Outcome.bind_ok (a : α) (f : α → Outcome β) :
    Outcome.bind (.ok a) f = f a := rfl

@[simp] theorem Outcome.bind_err (e : Error) (f : α → Outcome β) :
    Outcome.bind (.err e) f = .err e := rfl

@[simp] theorem Outcome.bind_panicked (f : α → Outcome β) :
    Outcome.bind (.panicked : Outcome α) f = .panicked := rfl

@[simp] theorem Outcome.bind_diverge (f : α → Outcome β) :
    Outcome.bind (.diverge : Outcome α) f = .diverge := rfl

theorem lookupN_insertN (m : SubMap) (k v j : Nat) :
    lookupN (insertN m k v) j = if k = j then some v else lookupN m j := by
  induction m with
  | nil => simp [insertN, lookupN]
  | cons p t ih =>
    obtain ⟨a, b⟩ := p
    by_cases hak : a = k
    · subst hak
      by_cases haj : a = j <;> simp [insertN, lookupN, haj]
    · by_cases haj : a = j
      · subst haj
        have hkj : ¬k = a := fun h => hak h.symm
        simp [insertN, lookupN, hak, hkj]
      · simp [insertN, lookupN, hak, haj, ih]

theorem lookupSubs_insertSub (S : Substitutions) (x : CoreIdentifier) (k v : Nat)
    (y : CoreIdentifier) :
    lookupSubs (insertSub S x k v) y =
      if x = y then some (insertN ((lookupSubs S x).getD []) k v)
      else lookupSubs S y := by
  induction S with
  | nil => by_cases hxy : x = y <;> simp [insertSub, lookupSubs, insertN, hxy]
  | cons p t ih =>
    obtain ⟨a, m⟩ := p
    by_cases hax : a = x
    · subst hax
      by_cases hay : a = y <;> simp [insertSub, lookupSubs, hay]
    · by_cases hay : a = y
      · subst hay
        have hxa : ¬x = a := fun h => hax h.symm
        simp [insertSub, lookupSubs, hax, hxa]
      · simp [insertSub, lookupSubs, hax, hay, ih]

theorem lookupSub_insertSub (S : Substitutions) (x : CoreIdentifier) (k v : Nat)
    (y : CoreIdentifier) (j : Nat) :
    lookupSub (insertSub S x k v) y j =
      if x = y ∧ k = j then some v else lookupSub S y j := by
  unfold lookupSub
  rw [lookupSubs_insertSub]
  by_cases hxy : x = y
  · rw [if_pos hxy]
    subst hxy
    cases hS : lookupSubs S x with
    | none => by_cases hkj : k = j <;> simp [lookupN_insertN, lookupN, hkj]
    | some m => by_cases hkj : k = j <;> simp [lookupN_insertN, hkj]
  · rw [if_neg hxy]
    simp [hxy]

theorem register_cons (S : Substitutions) (y : CoreIdentifier) (vy : Nat)
    (t : Versions) (b : Versions) :
    register S ((y, vy) :: t) b =
      register
        (match lookupV b y with
         | none => S
         | some tov =>
           if vy = tov then S
           else insertSub S y vy ((lookupSub S y tov).getD tov)) t b := rfl

theorem register_cons_none (S : Substitutions) (y : CoreIdentifier) (vy : Nat)
    (t b : Versions) (h : lookupV b y = none) :
    register S ((y, vy) :: t) b = register S t b := by
  rw [register_cons, h]

theorem register_cons_some_eq (S : Substitutions) (y : CoreIdentifier)
    (vy tov : Nat) (t b : Versions) (h : lookupV b y = some tov)
    (he : vy = tov) :
    register S ((y, vy) :: t) b = register S t b := by
  rw [register_cons, h]
  show register
    (if vy = tov then S
     else insertSub S y vy ((lookupSub S y tov).getD tov)) t b = _
  rw [if_pos he]

theorem register_cons_some_ne (S : Substitutions) (y : CoreIdentifier)
    (vy tov : Nat) (t b : Versions) (h : lookupV b y = some tov)
    (he : ¬vy = tov) :
    register S ((y, vy) :: t) b =
      register (insertSub S y vy ((lookupSub S y tov).getD tov)) t b := by
  rw [register_cons, h]
  show register
    (if vy = tov then S
     else insertSub S y vy ((lookupSub S y tov).getD tov)) t b = _
  rw [if_neg he]

theorem register_preserves (b : Versions) (x : CoreIdentifier) :
    ∀ (a : Versions) (S : Substitutions), (∀ p ∈ a, p.1 ≠ x) →
      lookupSubs (register S a b) x = lookupSubs S x := by
  intro a
  induction a with
  | nil => intro S _; rfl
  | cons p t ih =>
    intro S hp
    obtain ⟨y, vy⟩ := p
    have hyx : y ≠ x := hp (y, vy) (List.mem_cons_self _ _)
    have ht : ∀ q ∈ t, q.1 ≠ x := fun q hq => hp q (List.mem_cons_of_mem _ hq)
    cases hby : lookupV b y with
    | none =>
      rw [register_cons_none S y vy t b hby]
      exact ih S ht
    | some tov =>
      by_cases hvy : vy = tov
      · rw [register_cons_some_eq S y vy tov t b hby hvy]
        exact ih S ht
      · rw [register_cons_some_ne S y vy tov t b hby hvy, ih _ ht,
          lookupSubs_insertSub, if_neg hyx]

theorem lookupSub_register_preserves (b : Versions) (x : CoreIdentifier)
    (a : Versions) (S : Substitutions) (hp : ∀ p ∈ a, p.1 ≠ x) (v : Nat) :
    lookupSub (register S a b) x v = lookupSub S x v := by
  unfold lookupSub
  rw [register_preserves b x a S hp]

/-- C4: `register` inserts, for exactly the core-ids `x` present in both
snapshots with `substitute[x] ≠ with[x]`, the edge
`substitute[x] ↦ (S[x][with[x]]` if that entry exists, else `with[x])`;
bindings for core-ids present in only one snapshot, or whose versions
agree, are unchanged, as are all other versions of an inserted id. -/
theorem c4_register_spec (S : Substitutions) (a b : Versions)
    (hnd : (a.map Prod.fst).Nodup) :
    (∀ x va vb v, lookupV a x = some va → lookupV b x = some vb →
      lookupSub (register S a b) x v =
        if va ≠ vb ∧ v = va then some ((lookupSub S x vb).getD vb)
        else lookupSub S x v) ∧
    (∀ x v, lookupV a x = none ∨ lookupV b x = none →
      lookupSub (register S a b) x v = lookupSub S x v) := by
  induction a generalizing S with
  | nil =>
    constructor
    · intro x va vb v ha hb
      simp [lookupV] at ha
    · intro x v _
      rfl
  | cons p t ih =>
    obtain ⟨y, vy⟩ := p
    simp only [List.map_cons, List.nodup_cons] at hnd
    obtain ⟨hyt, hndt⟩ := hnd
    have hnt : ∀ q ∈ t, q.1 ≠ y := by
      intro q hq h
      exact hyt (h ▸ List.mem_map_of_mem Prod.fst hq)
    constructor
    · intro x va vb v hax hbx
      by_cases hxy : x = y
      · subst hxy
        have hva : va = vy := by
          simp [lookupV] at hax
          exact hax.symm
        subst hva
        by_cases hvy : va = vb
        · rw [register_cons_some_eq S x va vb t b hbx hvy,
            lookupSub_register_preserves b x t S hnt, if_neg]
          intro hc
          exact hc.1 hvy
        · rw [register_cons_some_ne S x va vb t b hbx hvy,
            lookupSub_register_preserves b x t _ hnt,
            lookupSub_insertSub]
          by_cases hv : v = va
          · rw [if_pos ⟨rfl, hv.symm⟩, if_pos ⟨hvy, hv⟩]
          · rw [if_neg, if_neg]
            · intro hc
              exact hv hc.2
            · intro hc
              exact hv hc.2.symm
      · have hyx : ¬y = x := fun h => hxy h.symm
        have hax' : lookupV t x = some va := by
          simpa [lookupV, hyx] using hax
        have hS' : ∀ S', (∀ j, lookupSub S' x j = lookupSub S x j) →
            lookupSub (register S' t b) x v =
              if va ≠ vb ∧ v = va then some ((lookupSub S x vb).getD vb)
              else lookupSub S x v := by
          intro S' hj
          rw [(ih S' hndt).1 x va vb v hax' hbx]
          by_cases hc : va ≠ vb ∧ v = va
          · rw [if_pos hc, if_pos hc, hj]
          · rw [if_neg hc, if_neg hc, hj]
        cases hby : lookupV b y with
        | none =>
          rw [register_cons_none S y vy t b hby]
          exact hS' S (fun _ => rfl)
        | some tov =>
          by_cases hvy : vy = tov
          · rw [register_cons_some_eq S y vy tov t b hby hvy]
            exact hS' S (fun _ => rfl)
          · rw [register_cons_some_ne S y vy tov t b hby hvy]
            refine hS' _ (fun j => ?_)
            rw [lookupSub_insertSub, if_neg]
            intro hc
            exact hxy hc.1.symm
    · intro x v hmiss
      by_cases hxy : x = y
      · subst hxy
        have hbx : lookupV b x = none := by
          rcases hmiss with h | h
          · simp [lookupV] at h
          · exact h
        rw [register_cons_none S x vy t b hbx]
        exact lookupSub_register_preserves b x t S hnt v
      · have hyx : ¬y = x := fun hh => hxy hh.symm
        have hmiss' : lookupV t x = none ∨ lookupV b x = none := by
          rcases hmiss with h | h
          · left
            simpa [lookupV, hyx] using h
          · right
            exact h
        have hS' : ∀ S', (∀ j, lookupSub S' x j = lookupSub S x j) →
            lookupSub (register S' t b) x v = lookupSub S x v := by
          intro S' hj
          rw [(ih S' hndt).2 x v hmiss', hj]
        cases hby : lookupV b y with
        | none =>
          rw [register_cons_none S y vy t b hby]
          exact hS' S (fun _ => rfl)
        | some tov =>
          by_cases hvy : vy = tov
          · rw [register_cons_some_eq S y vy tov t b hby hvy]
            exact hS' S (fun _ => rfl)
          · rw [register_cons_some_ne S y vy tov t b hby hvy]
            refine hS' _ (fun j => ?_)
            rw [lookupSub_insertSub, if_neg]
            intro hc
            exact hxy hc.1.symm

/-- Witness for C4 at a concrete map and snapshots: id 7 is in both
snapshots with versions 3 and 5, and `S[7][5] = 3` exists, so the edge
`3 ↦ 3` is inserted. -/
theorem c4_witness :
    ((regA.map Prod.fst).Nodup) ∧
      lookupSub (register regS0 regA regB) (.call 7) 3 = some 3 := by
  constructor
  · decide
  · rw [(c4_register_spec regS0 regA regB (by decide)).1 (.call 7) 3 5 3
      (by decide) (by decide)]
    decide

/-! ## C5: the `Sub` folder -/

theorem fold_name_some (S : Substitutions) (x : CoreIdentifier) (v w : Nat)
    (h : lookupSub S x v = some w) : fold_name S ⟨x, v⟩ = ⟨x, w⟩ := by
  unfold fold_name
  unfold lookupSub at h
  cases hS : lookupSubs S x with
  | none => rw [hS] at h; simp at h
  | some m =>
    rw [hS] at h
    simp only [Option.some_bind] at h
    simp [hS, h]

theorem fold_name_none (S : Substitutions) (x : CoreIdentifier) (v : Nat)
    (h : lookupSub S x v = none) : fold_name S ⟨x, v⟩ = ⟨x, v⟩ := by
  unfold fold_name
  unfold lookupSub at h
  cases hS : lookupSubs S x with
  | none => simp [hS]
  | some m =>
    rw [hS] at h
    simp only [Option.some_bind] at h
    simp [hS, h]

mutual

theorem idents_sub_expression (S : Substitutions) :
    ∀ e : Exp, idents_expression (sub_expression S e) =
      (idents_expression e).map (fold_name S)
  | .fieldValue _ => by simp [sub_expression, idents_expression]
  | .boolValue _ => by simp [sub_expression, idents_expression]
  | .uintValue _ _ => by simp [sub_expression, idents_expression]
  | .ident _ _ => rfl
  | .add a b => by
    simp [sub_expression, idents_expression, idents_sub_expression S a,
      idents_sub_expression S b]
  | .arr t es => by
    simp [sub_expression, idents_expression, idents_sub_expressions S es]
  | .funCall t k args => by
    simp [sub_expression, idents_expression, idents_sub_expressions S args]

theorem idents_sub_expressions (S : Substitutions) :
    ∀ es : List Exp, idents_expressions (sub_expressions S es) =
      (idents_expressions es).map (fold_name S)
  | [] => rfl
  | e :: es => by
    simp [sub_expressions, idents_expressions, idents_sub_expression S e,
      idents_sub_expressions S es]

end

theorem idents_sub_variable (S : Substitutions) (v : Variable) :
    (sub_variable S v).id = fold_name S v.id := rfl

mutual

theorem idents_sub_statement (S : Substitutions) :
    ∀ s : Stmt, idents_statement (sub_statement S s) =
      (idents_statement s).map (fold_name S)
  | .definition v e => by
    simp [sub_statement, idents_statement, sub_variable,
      idents_sub_expression S e]
  | .multipleDefinition vs k args tys => by
    simp [sub_statement, idents_statement, sub_variable,
      idents_sub_expressions S args, List.map_map]
  | .ret es => by
    simp [sub_statement, idents_statement, idents_sub_expressions S es]
  | .forLoop v lo hi body => by
    simp [sub_statement, idents_statement, sub_variable,
      idents_sub_expression S lo, idents_sub_expression S hi,
      idents_sub_statements S body]
  | .pushCallLog _ _ => by simp [sub_statement, idents_statement]
  | .popCallLog => by simp [sub_statement, idents_statement]

theorem idents_sub_statements (S : Substitutions) :
    ∀ l : List Stmt, idents_statements (sub_statements S l) =
      (idents_statements l).map (fold_name S)
  | [] => by simp [sub_statements, idents_statements]
  | s :: rest => by
    simp [sub_statements, idents_statements, idents_sub_statement S s,
      idents_sub_statements S rest]

end

theorem erase_sub_variable (S : Substitutions) (v : Variable) :
    erase_variable (sub_variable S v) = erase_variable v := rfl

mutual

theorem erase_sub_expression (S : Substitutions) :
    ∀ e : Exp, erase_expression (sub_expression S e) = erase_expression e
  | .fieldValue _ => rfl
  | .boolValue _ => rfl
  | .uintValue _ _ => rfl
  | .ident _ _ => rfl
  | .add a b => by
    simp [sub_expression, erase_expression, erase_sub_expression S a,
      erase_sub_expression S b]
  | .arr t es => by
    simp [sub_expression, erase_expression, erase_sub_expressions S es]
  | .funCall t k args => by
    simp [sub_expression, erase_expression, erase_sub_expressions S args]

theorem erase_sub_expressions (S : Substitutions) :
    ∀ es : List Exp, erase_expressions (sub_expressions S es) = erase_expressions es
  | [] => rfl
  | e :: es => by
    simp [sub_expressions, erase_expressions, erase_sub_expression S e,
      erase_sub_expressions S es]

end

mutual

theorem erase_sub_statement (S : Substitutions) :
    ∀ s : Stmt, erase_statement (sub_statement S s) = erase_statement s
  | .definition v e => by
    simp [sub_statement, erase_statement, erase_sub_variable,
      erase_sub_expression S e]
  | .multipleDefinition vs k args tys => by
    simp [sub_statement, erase_statement, List.map_map,
      erase_sub_expressions S args]
    exact fun a _ => rfl
  | .ret es => by
    simp [sub_statement, erase_statement, erase_sub_expressions S es]
  | .forLoop v lo hi body => by
    simp [sub_statement, erase_statement, erase_sub_variable,
      erase_sub_expression S lo, erase_sub_expression S hi,
      erase_sub_statements S body]
  | .pushCallLog _ _ => rfl
  | .popCallLog => rfl

theorem erase_sub_statements (S : Substitutions) :
    ∀ l : List Stmt, erase_statements (sub_statements S l) = erase_statements l
  | [] => rfl
  | s :: rest => by
    simp [sub_statements, erase_statements, erase_sub_statement S s,
      erase_sub_statements S rest]

end

/-- C5: applying the substitution map to a function rewrites every
identifier occurrence `(x, v)` to `(x, S[x][v])` when `S` has an entry
for `x` and `v`, leaves it exactly `(x, v)` when either lookup misses,
and changes nothing else: the occurrence list is mapped pointwise through
`fold_name` and the identifier-erased skeleton is untouched. -/
theorem c5_sub_apply (S : Substitutions) :
    (∀ x v w, lookupSub S x v = some w → fold_name S ⟨x, v⟩ = ⟨x, w⟩) ∧
    (∀ x v, lookupSub S x v = none → fold_name S ⟨x, v⟩ = ⟨x, v⟩) ∧
    (∀ f, idents_function (fold_function S f) =
        (idents_function f).map (fold_name S) ∧
      erase_function (fold_function S f) = erase_function f) := by
  refine ⟨fold_name_some S, fold_name_none S, fun f => ⟨?_, ?_⟩⟩
  · unfold fold_function idents_function
    simp [idents_sub_statements S f.statements, List.map_map]
    exact fun a _ => rfl
  · unfold fold_function erase_function
    simp [erase_sub_statements S f.statements, List.map_map]
    exact fun a _ => rfl

/-- Witness for C5: a present entry is rewritten, an absent one is kept,
on the concrete map `subC3` and a concrete one-statement function. -/
theorem c5_witness :
    fold_name subC3 ⟨.call 1, 1⟩ = ⟨.call 1, 2⟩ ∧
      fold_name subC3 ⟨.call 1, 7⟩ = ⟨.call 1, 7⟩ ∧
      idents_function (fold_function subC3
          ⟨[], [], [.ret [.ident Ty.fieldElement ⟨.call 1, 1⟩]], sigA⟩) =
        (idents_function
          ⟨[], [], [.ret [.ident Ty.fieldElement ⟨.call 1, 1⟩]], sigA⟩).map
            (fold_name subC3) :=
  ⟨(c5_sub_apply subC3).1 (.call 1) 1 2 (by decide),
   (c5_sub_apply subC3).2.1 (.call 1) 7 (by decide),
   ((c5_sub_apply subC3).2.2 _).1⟩

/-! ## C6 and C7: the `For` branches of the statement folder -/

theorem lookupV_mapSnd (f : Nat → Nat) (V : Versions) (x : CoreIdentifier) :
    lookupV (V.map (fun p => (p.1, f p.2))) x = (lookupV V x).map f := by
  induction V with
  | nil => rfl
  | cons p t ih =>
    obtain ⟨a, b⟩ := p
    by_cases hax : a = x <;> simp [lookupV, hax, ih]

theorem lookupV_bumpAll (V : Versions) (x : CoreIdentifier) :
    lookupV (bumpAll V) x = (lookupV V x).map (· + 1) := by
  unfold bumpAll
  exact lookupV_mapSnd (· + 1) V x

/-- C6: on a `For` with literal bounds, the driver pops the loop-entry
snapshot, bumps every version by one, registers the bumped snapshot back
to the loop-entry one, computes the versions-after snapshot as the
loop-entry snapshot plus exactly 2, unrolls once per index of `[lo, hi)`
with a prepended `Definition` binding the loop variable to the literal
index, and after unrolling registers the versions-after snapshot to the
final versions. -/
theorem c6_for_literal (P : Params) (fuel : Nat) (st : RState) (v : Variable)
    (w1 w2 lov hiv : Nat) (body : List Stmt) (Vb : Versions)
    (rest : List Versions) (hst : st.for_loop_versions = Vb :: rest) :
    fold_statement P (fuel + 2) st
        (.forLoop v (.uintValue w1 lov) (.uintValue w2 hiv) body) =
      (let r := unrollLoop P.stepStmt v body ⟨bumpAll st.versions, [], false⟩
        lov (hiv - lov)
       .ok (⟨[], rest, st.for_loop_versions_after ++ r.1.backups, r.1.versions,
         register (register st.substitutions (bumpAll st.versions) Vb)
           (Vb.map (fun p => (p.1, p.2 + 2))) r.1.versions,
         st.cache, st.complete && !r.1.blocked⟩,
         st.statement_buffer ++ r.2)) ∧
    (∀ x, lookupV (bumpAll st.versions) x = (lookupV st.versions x).map (· + 1)) ∧
    (∀ x, lookupV (Vb.map (fun p => (p.1, p.2 + 2))) x =
      (lookupV Vb x).map (· + 2)) ∧
    (∀ s idx, unrollLoop P.stepStmt v body s idx 0 = (s, [])) ∧
    (∀ s idx count,
      unrollLoop P.stepStmt v body s idx (count + 1) =
        ((unrollLoop P.stepStmt v body
            (runTransformer P.stepStmt s (.definition v (.uintValue 32 idx) :: body)).1
            (idx + 1) count).1,
          (runTransformer P.stepStmt s
              (.definition v (.uintValue 32 idx) :: body)).2 ++
          (unrollLoop P.stepStmt v body
            (runTransformer P.stepStmt s (.definition v (.uintValue 32 idx) :: body)).1
            (idx + 1) count).2)) := by
  obtain ⟨buf, flv, after, vers, subs, cache, comp⟩ := st
  simp only at hst
  subst hst
  refine ⟨rfl, fun x => lookupV_bumpAll vers x,
    fun x => lookupV_mapSnd (· + 2) Vb x, fun s idx => rfl, fun s idx count => rfl⟩

/-- Witness for C6: the theorem applied at a concrete state with a
one-snapshot stack, concrete collaborator parameters and bounds `0..2`. -/
theorem c6_witness :
    fold_statement params0 2 stC6
        (.forLoop varC6 (.uintValue 32 0) (.uintValue 32 2) []) =
      (let r := unrollLoop params0.stepStmt varC6 [] ⟨bumpAll stC6.versions, [], false⟩
        0 (2 - 0)
       .ok (⟨[], [], stC6.for_loop_versions_after ++ r.1.backups, r.1.versions,
         register (register stC6.substitutions (bumpAll stC6.versions) [(.call 2, 0)])
           ([(.call 2, 0)].map (fun p => (p.1, p.2 + 2))) r.1.versions,
         stC6.cache, stC6.complete && !r.1.blocked⟩,
         stC6.statement_buffer ++ r.2)) :=
  (c6_for_literal params0 0 stC6 varC6 32 32 0 2 [] [(.call 2, 0)] [] rfl).1

/-- C7: on a `For` whose bounds are not both literals, the driver
re-emits the statement unchanged, pushes the popped loop-entry snapshot
onto the next iteration's stack, and clears the completeness flag. -/
theorem c7_for_non_literal (P : Params) (fuel : Nat) (st : RState)
    (v : Variable) (lo hi : Exp) (body : List Stmt) (Vb : Versions)
    (rest : List Versions) (hst : st.for_loop_versions = Vb :: rest)
    (hnl : (∀ w n, lo ≠ .uintValue w n) ∨ (∀ w n, hi ≠ .uintValue w n)) :
    fold_statement P (fuel + 2) st (.forLoop v lo hi body) =
      .ok (⟨[], rest, st.for_loop_versions_after ++ [Vb], st.versions,
        st.substitutions, st.cache, false⟩,
        st.statement_buffer ++ [.forLoop v lo hi body]) := by
  obtain ⟨buf, flv, after, vers, subs, cache, comp⟩ := st
  simp only at hst
  subst hst
  cases lo <;> cases hi <;>
    first
      | rfl
      | (exfalso
         rcases hnl with h | h
         · exact h _ _ rfl
         · exact h _ _ rfl)

/-- Witness for C7: the theorem applied at a concrete state with a
non-literal upper bound. -/
theorem c7_witness :
    fold_statement params0 2 stC6
        (.forLoop varC6 (.uintValue 32 0) (.ident (Ty.uint 32) ⟨.call 9, 0⟩) []) =
      .ok (⟨[], [], stC6.for_loop_versions_after ++ [[(.call 2, 0)]], stC6.versions,
        stC6.substitutions, stC6.cache, false⟩,
        stC6.statement_buffer ++
          [.forLoop varC6 (.uintValue 32 0) (.ident (Ty.uint 32) ⟨.call 9, 0⟩) []]) :=
  c7_for_non_literal params0 0 stC6 varC6 (.uintValue 32 0)
    (.ident (Ty.uint 32) ⟨.call 9, 0⟩) [] [(.call 2, 0)] [] rfl
    (Or.inr (fun _ _ h => Exp.noConfusion h))

/-! ## C1 and C9: the shape of `reduce_program`'s output and its panics -/

theorem bind_ok_inv (x : Outcome α) (f : α → Outcome β) (b : β)
    (h : Outcome.bind x f = .ok b) : ∃ a, x = .ok a ∧ f a = .ok b := by
  cases x with
  | ok a => exact ⟨a, rfl, h⟩
  | err e => exact Outcome.noConfusion h
  | panicked => exact Outcome.noConfusion h
  | diverge => exact Outcome.noConfusion h

theorem bind_err_inv (x : Outcome α) (f : α → Outcome β) (e : Error)
    (h : Outcome.bind x f = .err e) :
    x = .err e ∨ ∃ a, x = .ok a ∧ f a = .err e := by
  cases x with
  | ok a => exact Or.inr ⟨a, rfl, h⟩
  | err e' =>
    rw [Outcome.bind_err] at h
    injection h with he
    exact Or.inl (by rw [he])
  | panicked => exact Outcome.noConfusion h
  | diverge => exact Outcome.noConfusion h

/-- C1: whenever `reduce_program` succeeds, the output program has
exactly one module (the entry module), whose function map is exactly one
`Here` function (the rewritten main) followed by the seven flat-embed
symbols (`Unpack`, `U8/U16/U32 To/FromBits`). -/
theorem c1_output_shape (O : Oracle) (fuel : Nat) (p q : TypedProgram)
    (h : reduce_program O fuel p = .ok q) :
    ∃ k f m, q.modules = [(p.main, m)] ∧
      m.functions = (k, .here f) :: embeds_in_module O.bits p.main ∧
      (m.functions.filter
        (fun kv => match kv.2 with | .here _ => true | .flat _ => false)).length = 1 ∧
      (m.functions.filter
        (fun kv => match kv.2 with | .flat _ => true | .here _ => false)).map Prod.snd =
        [.flat (.unpack O.bits), .flat .u32FromBits, .flat .u16FromBits,
         .flat .u8FromBits, .flat .u32ToBits, .flat .u16ToBits, .flat .u8ToBits] := by
  simp only [reduce_program] at h
  split at h <;> try exact Outcome.noConfusion h
  split at h <;> try exact Outcome.noConfusion h
  split at h <;> try exact Outcome.noConfusion h
  obtain ⟨f', hf', hok⟩ := bind_ok_inv _ _ _ h
  injection hok with hq
  subst hq
  exact ⟨_, f', _, rfl, rfl, rfl, rfl⟩

/-- Witness for C1: a concrete one-function program reduced with the
concrete collaborators succeeds, so the conclusion holds for it. -/
theorem c1_witness :
    ∃ k f m,
      (TypedProgram.mk ("main")
        [(("main"), ⟨(keyB, .here fOk) :: embeds_in_module 8 ("main")⟩)]).modules =
        [(progC1.main, m)] ∧
      m.functions = (k, .here f) :: embeds_in_module oracle0.bits progC1.main ∧
      (m.functions.filter
        (fun kv => match kv.2 with | .here _ => true | .flat _ => false)).length = 1 ∧
      (m.functions.filter
        (fun kv => match kv.2 with | .flat _ => true | .here _ => false)).map Prod.snd =
        [.flat (.unpack oracle0.bits), .flat .u32FromBits, .flat .u16FromBits,
         .flat .u8FromBits, .flat .u32ToBits, .flat .u16ToBits, .flat .u8ToBits] :=
  c1_output_shape oracle0 1 progC1 _ rfl

theorem reduce_program_entry_none (O : Oracle) (fuel : Nat) (p : TypedProgram)
    (h : entryHere p = none) : reduce_program O fuel p = .panicked := by
  unfold entryHere at h
  simp only [reduce_program]
  split
  · rfl
  · rename_i m hm
    simp only [hm] at h
    split
    · rfl
    · rfl
    · rename_i mk mf hfind
      simp only [hfind] at h
      exact Option.noConfusion h

/-- C9: `reduce_program` panics (rather than returning an error) when the
entry module is absent, when it has no function with id `main`, or when
the `main` symbol is a flat embed; the declared error surface (and the
`ok` outcome) only occurs for programs passing these three checks. -/
theorem c9_panics (O : Oracle) (fuel : Nat) (p : TypedProgram) :
    ((entryHere p = none) ↔
      (lookupMod p.modules p.main = none ∨
       ∃ m, lookupMod p.modules p.main = some m ∧
         (m.functions.find? (fun kv => kv.1.id == ("main")) = none ∨
          ∃ k e, m.functions.find? (fun kv => kv.1.id == ("main")) =
            some (k, .flat e)))) ∧
    (entryHere p = none → reduce_program O fuel p = .panicked) ∧
    (∀ e, reduce_program O fuel p = .err e → entryHere p ≠ none) ∧
    (∀ q, reduce_program O fuel p = .ok q → entryHere p ≠ none) := by
  have hiff : (entryHere p = none) ↔
      (lookupMod p.modules p.main = none ∨
       ∃ m, lookupMod p.modules p.main = some m ∧
         (m.functions.find? (fun kv => kv.1.id == ("main")) = none ∨
          ∃ k e, m.functions.find? (fun kv => kv.1.id == ("main")) =
            some (k, .flat e))) := by
    cases hm : lookupMod p.modules p.main with
    | none => exact iff_of_true (by simp [entryHere, hm]) (Or.inl rfl)
    | some m =>
      cases hf : m.functions.find? (fun kv => kv.1.id == ("main")) with
      | none =>
        exact iff_of_true (by simp [entryHere, hm, hf])
          (Or.inr ⟨m, rfl, Or.inl hf⟩)
      | some kv =>
        obtain ⟨k, sym⟩ := kv
        cases sym with
        | flat e =>
          exact iff_of_true (by simp [entryHere, hm, hf])
            (Or.inr ⟨m, rfl, Or.inr ⟨k, e, hf⟩⟩)
        | here f =>
          apply iff_of_false
          · simp [entryHere, hm, hf]
          · rintro (hcontra | ⟨m', hm', hcase | ⟨k', e', hfind⟩⟩)
            · exact Option.noConfusion hcontra
            · injection hm' with hmm
              subst hmm
              rw [hf] at hcase
              exact Option.noConfusion hcase
            · injection hm' with hmm
              subst hmm
              rw [hf] at hfind
              injection hfind with hkv
              have hsym : TypedFunctionSymbol.here f = .flat e' :=
                congrArg Prod.snd hkv
              exact TypedFunctionSymbol.noConfusion hsym
  refine ⟨hiff, reduce_program_entry_none O fuel p, ?_, ?_⟩
  · intro e he hnone
    rw [reduce_program_entry_none O fuel p hnone] at he
    exact Outcome.noConfusion he
  · intro q hq hnone
    rw [reduce_program_entry_none O fuel p hnone] at hq
    exact Outcome.noConfusion hq

/-- Witness for C9: the missing-entry-module program panics. -/
theorem c9_witness :
    reduce_program oracle0 1 progNoModule = .panicked :=
  (c9_panics oracle0 1 progNoModule).2.1 rfl

/-! ## C2: `GenericsInMain` is raised exactly for generic entry functions

Every error constructed inside the statement folder and the fixed-point
loop is `Incompatible`; `GenericsInMain` is constructed only by the
generics check of `reduce_program`. -/

theorem Outcome.bind_ne_gim (x : Outcome α) (f : α → Outcome β)
    (hx : x ≠ .err .genericsInMain) (hf : ∀ a, f a ≠ .err .genericsInMain) :
    Outcome.bind x f ≠ .err .genericsInMain := by
  cases x with
  | ok a => exact hf a
  | err e =>
    rw [Outcome.bind_err]
    intro h
    injection h with he
    exact hx (by rw [he])
  | panicked =>
    rw [Outcome.bind_panicked]
    exact fun h => Outcome.noConfusion h
  | diverge =>
    rw [Outcome.bind_diverge]
    exact fun h => Outcome.noConfusion h

theorem folds_no_gim (P : Params) :
    ∀ fuel,
      (∀ st e, fold_expression P fuel st e ≠ .err .genericsInMain) ∧
      (∀ st es, fold_expressions P fuel st es ≠ .err .genericsInMain) ∧
      (∀ st k args tys,
        fold_function_call P fuel st k args tys ≠ .err .genericsInMain) ∧
      (∀ st s, fold_statement_cases P fuel st s ≠ .err .genericsInMain) ∧
      (∀ st s, fold_statement P fuel st s ≠ .err .genericsInMain) ∧
      (∀ st l, fold_statements P fuel st l ≠ .err .genericsInMain) := by
  intro fuel
  induction fuel with
  | zero =>
    exact ⟨fun _ _ h => Outcome.noConfusion h, fun _ _ h => Outcome.noConfusion h,
      fun _ _ _ _ h => Outcome.noConfusion h, fun _ _ h => Outcome.noConfusion h,
      fun _ _ h => Outcome.noConfusion h, fun _ _ h => Outcome.noConfusion h⟩
  | succ fuel ih =>
    obtain ⟨ihE, ihEs, ihC, ihSC, ihS, ihSs⟩ := ih
    refine ⟨?_, ?_, ?_, ?_, ?_, ?_⟩
    · intro st e
      cases e with
      | fieldValue n => exact fun h => Outcome.noConfusion h
      | boolValue b => exact fun h => Outcome.noConfusion h
      | uintValue w n => exact fun h => Outcome.noConfusion h
      | ident t i => exact fun h => Outcome.noConfusion h
      | add a b =>
        simp only [fold_expression]
        apply Outcome.bind_ne_gim _ _ (ihE st a)
        intro ra
        apply Outcome.bind_ne_gim _ _ (ihE ra.1 b)
        intro rb
        exact fun h => Outcome.noConfusion h
      | arr t es =>
        simp only [fold_expression]
        apply Outcome.bind_ne_gim _ _ (ihEs st es)
        intro r
        exact fun h => Outcome.noConfusion h
      | funCall t k args =>
        simp only [fold_expression]
        exact ihC st k args [t]
    · intro st es
      cases es with
      | nil => exact fun h => Outcome.noConfusion h
      | cons e es =>
        simp only [fold_expressions]
        apply Outcome.bind_ne_gim _ _ (ihE st e)
        intro r1
        apply Outcome.bind_ne_gim _ _ (ihEs r1.1 es)
        intro r2
        exact fun h => Outcome.noConfusion h
    · intro st k args tys
      simp only [fold_function_call]
      apply Outcome.bind_ne_gim _ _ (ihEs st args)
      intro r
      split <;> first
        | (split <;> exact fun h => Outcome.noConfusion h)
        | exact fun h => Outcome.noConfusion h
        | (intro h; injection h with he; exact Error.noConfusion he)
    · intro st s
      cases s with
      | definition v e =>
        simp only [fold_statement_cases]
        apply Outcome.bind_ne_gim _ _ (ihE st e)
        intro r
        exact fun h => Outcome.noConfusion h
      | multipleDefinition vs k args tys =>
        simp only [fold_statement_cases]
        apply Outcome.bind_ne_gim _ _ (ihEs st args)
        intro r
        split <;> first
          | (split <;> exact fun h => Outcome.noConfusion h)
          | exact fun h => Outcome.noConfusion h
          | (intro h; injection h with he; exact Error.noConfusion he)
      | ret es =>
        simp only [fold_statement_cases]
        apply Outcome.bind_ne_gim _ _ (ihEs st es)
        intro r
        exact fun h => Outcome.noConfusion h
      | forLoop v lo hi body =>
        simp only [fold_statement_cases]
        split
        · exact fun h => Outcome.noConfusion h
        · split <;> exact fun h => Outcome.noConfusion h
      | pushCallLog k g => exact fun h => Outcome.noConfusion h
      | popCallLog => exact fun h => Outcome.noConfusion h
    · intro st s
      simp only [fold_statement]
      apply Outcome.bind_ne_gim _ _ (ihSC st s)
      intro r
      exact fun h => Outcome.noConfusion h
    · intro st l
      cases l with
      | nil => exact fun h => Outcome.noConfusion h
      | cons s rest =>
        simp only [fold_statements]
        apply Outcome.bind_ne_gim _ _ (ihS st s)
        intro r1
        apply Outcome.bind_ne_gim _ _ (ihSs r1.1 rest)
        intro r2
        exact fun h => Outcome.noConfusion h

theorem reduceLoop_no_gim (P : Params) (prop : TypedFunction → TypedFunction) :
    ∀ fuel versions subs flv f,
      reduceLoop P prop fuel versions subs flv f ≠ .err .genericsInMain := by
  intro fuel
  induction fuel with
  | zero => exact fun _ _ _ _ h => Outcome.noConfusion h
  | succ fuel ih =>
    intro versions subs flv f
    simp only [reduceLoop]
    apply Outcome.bind_ne_gim _ _ ((folds_no_gim P fuel).2.2.2.2.2 _ _)
    intro r
    split
    · exact fun h => Outcome.noConfusion h
    · split
      · split <;> exact fun h => Outcome.noConfusion h
      · exact ih _ _ _ _

theorem reduce_function_no_gim (P : Params)
    (transform : TypedFunction → Generics → Versions → (Versions × TOut))
    (prop : TypedFunction → TypedFunction) (fuel : Nat) (f : TypedFunction)
    (g : Generics) :
    reduce_function P transform prop fuel f g ≠ .err .genericsInMain := by
  unfold reduce_function
  rcases transform f g [] with ⟨v', out⟩
  cases out with
  | complete f' => exact fun h => Outcome.noConfusion h
  | incomplete f' backups => exact reduceLoop_no_gim P prop fuel v' [] backups f'

/-- C2: `reduce_program` returns `GenericsInMain` exactly when the entry
lookup succeeds with a `Here` main whose generic parameter list is
non-empty; with an empty list this error is never returned. -/
theorem c2_generics_in_main (O : Oracle) (fuel : Nat) (p : TypedProgram) :
    reduce_program O fuel p = .err .genericsInMain ↔
      ∃ k f, entryHere p = some (k, f) ∧ f.generics ≠ [] := by
  constructor
  · intro h
    simp only [reduce_program] at h
    split at h <;> try exact absurd h (fun hh => Outcome.noConfusion hh)
    split at h <;> try exact absurd h (fun hh => Outcome.noConfusion hh)
    split at h
    · exfalso
      rcases bind_err_inv _ _ _ h with hx | ⟨a, _, hfa⟩
      · exact reduce_function_no_gim _ _ _ _ _ _ hx
      · exact Outcome.noConfusion hfa
    · rename_i xa m0 hm xb key func hfind xc g gs hg
      refine ⟨key, func, ?_, ?_⟩
      · simp [entryHere, hm, hfind]
      · rw [hg]
        simp
  · rintro ⟨k, f, hkf, hg⟩
    unfold entryHere at hkf
    simp only [reduce_program]
    split
    · rename_i hm
      simp only [hm] at hkf
      exact Option.noConfusion hkf
    · rename_i m hm
      simp only [hm] at hkf
      split
      · rename_i hfind
        simp only [hfind] at hkf
        exact Option.noConfusion hkf
      · rename_i mk me hfind
        simp only [hfind] at hkf
        exact Option.noConfusion hkf
      · rename_i mk mf hfind
        simp only [hfind] at hkf
        injection hkf with hpair
        have hf : mf = f := congrArg Prod.snd hpair
        subst hf
        cases hgen : mf.generics with
        | nil => exact absurd hgen hg
        | cons g gs => rfl

/-- Witness for C2: a generic `main` is rejected with `GenericsInMain`;
a non-generic one never produces that error. -/
theorem c2_witness :
    reduce_program oracle0 1 progC8a = .err .genericsInMain ∧
      reduce_program oracle0 1 progC1 ≠ .err .genericsInMain := by
  constructor
  · exact (c2_generics_in_main oracle0 1 progC8a).mpr
      ⟨keyA, fGen, rfl, by decide⟩
  · intro h
    obtain ⟨k, f, hk, hg⟩ := (c2_generics_in_main oracle0 1 progC1).mp h
    have hh : (some (keyB, fOk) : Option (DeclarationFunctionKey × TypedFunction))
        = some (k, f) := hk
    injection hh with hpair
    have hf : fOk = f := congrArg Prod.snd hpair
    apply hg
    rw [← hf]
    rfl

/-! ## C8: determinism and the `HashMap` iteration order

`reduce_program` picks the entry function with
`functions.iter().find(|(k, _)| k.id == "main")` over a `HashMap`, whose
iteration order changes between runs.  -/

theorem find?_unique {α : Type} (pr : α → Bool) :
    ∀ l : List α, l.countP pr = 1 →
      ∃ a, l.find? pr = some a ∧ pr a = true ∧ ∀ b ∈ l, pr b = true → b = a := by
  intro l
  induction l with
  | nil => intro h; simp at h
  | cons x t ih =>
    intro h
    by_cases hx : pr x
    · have ht : t.countP pr = 0 := by
        rw [List.countP_cons_of_pos _ _ hx] at h
        omega
      refine ⟨x, List.find?_cons_of_pos _ hx, hx, ?_⟩
      intro b hb hpb
      rcases List.mem_cons.mp hb with hbx | hbt
      · exact hbx
      · exfalso
        exact absurd hpb (by simpa using (List.countP_eq_zero.mp ht) b hbt)
    · rw [List.countP_cons_of_neg _ _ hx] at h
      obtain ⟨a, hfa, hpa, hall⟩ := ih h
      refine ⟨a, ?_, hpa, ?_⟩
      · rw [List.find?_cons_of_neg _ hx]
        exact hfa
      · intro b hb hpb
        rcases List.mem_cons.mp hb with hbx | hbt
        · exact absurd (hbx ▸ hpb) hx
        · exact hall b hbt hpb

theorem find?_eq_of_perm_unique {α : Type} (pr : α → Bool) (l1 l2 : List α)
    (hperm : l1.Perm l2) (h1 : l1.countP pr = 1) :
    l1.find? pr = l2.find? pr := by
  obtain ⟨a, hf1, hpa, hall1⟩ := find?_unique pr l1 h1
  have h2 : l2.countP pr = 1 := (hperm.countP_eq pr).symm.trans h1
  obtain ⟨a2, hf2, hpa2, hall2⟩ := find?_unique pr l2 h2
  have ha2l1 : a2 ∈ l1 := hperm.mem_iff.mpr (List.mem_of_find?_eq_some hf2)
  have : a2 = a := hall1 a2 ha2l1 hpa2
  rw [hf1, hf2, this]

theorem lookupMod_updateMod_self (mods : List (String × TypedModule))
    (k : String) (m m' : TypedModule) (h : lookupMod mods k = some m) :
    lookupMod (updateMod mods k m') k = some m' := by
  induction mods with
  | nil => simp [lookupMod] at h
  | cons p t ih =>
    obtain ⟨a, b⟩ := p
    by_cases hak : a = k
    · subst hak
      simp [updateMod, lookupMod]
    · simp only [lookupMod, if_neg hak] at h
      simp [updateMod, lookupMod, hak, ih h]

theorem lookupMod_updateMod_other (mods : List (String × TypedModule))
    (k j : String) (m' : TypedModule) (h : j ≠ k) :
    lookupMod (updateMod mods k m') j = lookupMod mods j := by
  induction mods with
  | nil => rfl
  | cons p t ih =>
    obtain ⟨a, b⟩ := p
    by_cases hak : a = k
    · subst hak
      have haj : ¬a = j := fun hh => h hh.symm
      simp [updateMod, lookupMod, haj]
    · by_cases haj : a = j <;> simp [updateMod, lookupMod, hak, haj, ih, h]

theorem updateMod_updateMod (mods : List (String × TypedModule))
    (k : String) (m1 m2 : TypedModule) :
    updateMod (updateMod mods k m1) k m2 = updateMod mods k m2 := by
  induction mods with
  | nil => rfl
  | cons p t ih =>
    obtain ⟨a, b⟩ := p
    by_cases hak : a = k <;> simp [updateMod, hak, ih]

theorem reduce_program_unfold_here (O : Oracle) (fuel : Nat) (p : TypedProgram)
    (m : TypedModule) (k : DeclarationFunctionKey) (mainf : TypedFunction)
    (hm : lookupMod p.modules p.main = some m)
    (hf : m.functions.find? (fun kv => kv.1.id == ("main")) = some (k, .here mainf)) :
    reduce_program O fuel p =
      match mainf.generics with
      | [] =>
        Outcome.bind
          (reduce_function
            ⟨fun kk a t c v => O.inline_call kk a t
              ⟨p.main, updateMod p.modules p.main
                ⟨m.functions ++ embeds_in_module O.bits p.main⟩⟩ c v,
             O.stepStmt, p.main⟩
            O.transform O.propagate fuel mainf [])
          (fun f' => .ok ⟨p.main,
            [(p.main, ⟨(k, .here f') :: embeds_in_module O.bits p.main⟩)]⟩)
      | _ :: _ => .err .genericsInMain := by
  simp only [reduce_program, hm, hf]

theorem reduce_program_unfold_flat (O : Oracle) (fuel : Nat) (p : TypedProgram)
    (m : TypedModule) (k : DeclarationFunctionKey) (e : FlatEmbed)
    (hm : lookupMod p.modules p.main = some m)
    (hf : m.functions.find? (fun kv => kv.1.id == ("main")) = some (k, .flat e)) :
    reduce_program O fuel p = .panicked := by
  simp only [reduce_program, hm, hf]

/-- C8 fails as stated: these two programs are the same `HashMap` content
(the entry function lists are permutations of each other, as two runs'
iteration orders), yet one reduction rejects with `GenericsInMain` and
the other succeeds — `find` returns whichever `main` the iteration order
presents first, so output depends on a source of nondeterminism. -/
theorem c8_counterexample :
    ([(keyA, TypedFunctionSymbol.here fGen), (keyB, TypedFunctionSymbol.here fOk)]).Perm
      [(keyB, TypedFunctionSymbol.here fOk), (keyA, TypedFunctionSymbol.here fGen)] ∧
    progC8a = ⟨("main"), [(("main"),
      ⟨[(keyA, .here fGen), (keyB, .here fOk)]⟩)]⟩ ∧
    progC8b = ⟨("main"), [(("main"),
      ⟨[(keyB, .here fOk), (keyA, .here fGen)]⟩)]⟩ ∧
    reduce_program oracle0 3 progC8a = .err .genericsInMain ∧
    reduce_program oracle0 3 progC8b =
      .ok ⟨("main"), [(("main"),
        ⟨(keyB, .here fOk) :: embeds_in_module 8 ("main")⟩)]⟩ ∧
    reduce_program oracle0 3 progC8a ≠ reduce_program oracle0 3 progC8b := by
  refine ⟨List.Perm.swap _ _ _, rfl, rfl, rfl, rfl, ?_⟩
  intro h
  have h1 : reduce_program oracle0 3 progC8a = .err .genericsInMain := rfl
  have h2 : reduce_program oracle0 3 progC8b =
      .ok ⟨("main"), [(("main"),
        ⟨(keyB, .here fOk) :: embeds_in_module 8 ("main")⟩)]⟩ := rfl
  rw [h1, h2] at h
  exact Outcome.noConfusion h

/-- C8 (amended): when the entry module declares exactly one function
with id `main`, the reduction is insensitive to the `HashMap` iteration
order of the entry module's function map, provided the (external)
inliner depends only on the program's map contents. -/
theorem c8_amended (O : Oracle) (fuel : Nat) (p : TypedProgram)
    (m : TypedModule) (l2 : List (DeclarationFunctionKey × TypedFunctionSymbol))
    (hm : lookupMod p.modules p.main = some m)
    (hperm : m.functions.Perm l2)
    (huniq : m.functions.countP (fun kv => kv.1.id == ("main")) = 1)
    (hic : ∀ k a t c vv q1 q2, ProgPerm q1 q2 →
      O.inline_call k a t q1 c vv = O.inline_call k a t q2 c vv) :
    reduce_program O fuel p =
      reduce_program O fuel ⟨p.main, updateMod p.modules p.main ⟨l2⟩⟩ := by
  have hmq : lookupMod (updateMod p.modules p.main ⟨l2⟩) p.main = some ⟨l2⟩ :=
    lookupMod_updateMod_self _ _ m _ hm
  have hfind : m.functions.find? (fun kv => kv.1.id == ("main")) =
      l2.find? (fun kv => kv.1.id == ("main")) :=
    find?_eq_of_perm_unique _ _ _ hperm huniq
  obtain ⟨a, hf1, hpa, _⟩ := find?_unique _ m.functions huniq
  obtain ⟨k, sym⟩ := a
  have hf2 : l2.find? (fun kv => kv.1.id == ("main")) = some (k, sym) :=
    hfind ▸ hf1
  cases sym with
  | flat e =>
    rw [reduce_program_unfold_flat O fuel p m k e hm hf1,
      reduce_program_unfold_flat O fuel ⟨p.main, updateMod p.modules p.main ⟨l2⟩⟩
        ⟨l2⟩ k e hmq hf2]
  | here mainf =>
    rw [reduce_program_unfold_here O fuel p m k mainf hm hf1,
      reduce_program_unfold_here O fuel ⟨p.main, updateMod p.modules p.main ⟨l2⟩⟩
        ⟨l2⟩ k mainf hmq hf2]
    cases hg : mainf.generics with
    | cons g gs => rfl
    | nil =>
      simp only [hg]
      rw [updateMod_updateMod]
      have hprog : ProgPerm
          ⟨p.main, updateMod p.modules p.main
            ⟨m.functions ++ embeds_in_module O.bits p.main⟩⟩
          ⟨p.main, updateMod p.modules p.main
            ⟨l2 ++ embeds_in_module O.bits p.main⟩⟩ := by
        refine ⟨rfl, fun mid => ?_⟩
        by_cases hmid : mid = p.main
        · subst hmid
          rw [lookupMod_updateMod_self _ _ m _ hm,
            lookupMod_updateMod_self _ _ m _ hm]
          show (m.functions ++ embeds_in_module O.bits p.main).Perm
            (l2 ++ embeds_in_module O.bits p.main)
          exact hperm.append_right _
        · rw [lookupMod_updateMod_other _ _ _ _ hmid,
            lookupMod_updateMod_other _ _ _ _ hmid]
          cases lookupMod p.modules mid with
          | none => exact trivial
          | some mm =>
            show mm.functions.Perm mm.functions
            exact List.Perm.refl _
      have hicfun :
          (fun kk a t c v => O.inline_call kk a t
            ⟨p.main, updateMod p.modules p.main
              ⟨m.functions ++ embeds_in_module O.bits p.main⟩⟩ c v) =
          (fun kk a t c v => O.inline_call kk a t
            ⟨p.main, updateMod p.modules p.main
              ⟨l2 ++ embeds_in_module O.bits p.main⟩⟩ c v) := by
        funext kk a t c v
        exact hic kk a t c v _ _ hprog
      rw [hicfun]

/-- Witness for the amended C8 on a concrete two-function module with a
unique `main`, swapped iteration orders, and the concrete collaborators
(whose inliner ignores the program). -/
theorem c8_witness :
    reduce_program oracle0 3 progC8c =
      reduce_program oracle0 3
        ⟨progC8c.main, updateMod progC8c.modules progC8c.main ⟨fnsC8c2⟩⟩ :=
  c8_amended oracle0 3 progC8c ⟨[(keyB, .here fOk), (keyFoo, .here fFoo)]⟩
    fnsC8c2 rfl (List.Perm.swap _ _ _) (by decide)
    (fun _ _ _ _ _ _ _ _ => rfl)

/-! ## C3 and C10: `canonicalize` on acyclic and cyclic maps -/

theorem followN_zero (sub : SubMap) (v : Nat) : followN sub 0 v = v := rfl

theorem followN_terminal (sub : SubMap) (v : Nat) (h : lookupN sub v = none) :
    ∀ n, followN sub n v = v := by
  intro n
  cases n with
  | zero => rfl
  | succ n => simp [followN, h]

theorem followN_step (sub : SubMap) (v w : Nat) (h : lookupN sub v = some w)
    (n : Nat) : followN sub (n + 1) v = followN sub n w := by
  simp [followN, h]

theorem followN_add (sub : SubMap) :
    ∀ (a b v : Nat), followN sub (a + b) v = followN sub b (followN sub a v) := by
  intro a
  induction a with
  | zero =>
    intro b v
    rw [Nat.zero_add]
    rfl
  | succ a ih =>
    intro b v
    rw [Nat.succ_add]
    cases h : lookupN sub v with
    | none => simp [followN_terminal sub v h]
    | some w =>
      rw [followN_step sub v w h, followN_step sub v w h]
      exact ih b w

theorem lookupN_mem_keys (sub : SubMap) (k v : Nat) (h : lookupN sub k = some v) :
    k ∈ sub.map Prod.fst := by
  induction sub with
  | nil => simp [lookupN] at h
  | cons p t ih =>
    obtain ⟨a, b⟩ := p
    by_cases hak : a = k
    · subst hak
      simp
    · simp only [lookupN, if_neg hak] at h
      simp [ih h]

theorem chain_nodup (sub : SubMap) (v m : Nat)
    (hmin : ∀ j < m, lookupN sub (followN sub j v) ≠ none)
    (hP : lookupN sub (followN sub m v) = none) :
    ∀ i j, i < j → j < m → followN sub i v ≠ followN sub j v := by
  intro i j hij hjm heq
  have h2 : followN sub (i + (m - j)) v = followN sub (j + (m - j)) v := by
    rw [followN_add, followN_add, heq]
  have hjd : j + (m - j) = m := by omega
  rw [hjd] at h2
  refine hmin (i + (m - j)) (by omega) ?_
  rw [h2]
  exact hP

theorem chainlen_le (sub : SubMap) (v m : Nat)
    (hmin : ∀ j < m, lookupN sub (followN sub j v) ≠ none)
    (hP : lookupN sub (followN sub m v) = none) :
    m ≤ sub.length := by
  have hnd : ((List.range m).map (fun i => followN sub i v)).Nodup := by
    refine List.Nodup.map_on ?_ (List.nodup_range m)
    intro i hi j hj hf
    by_contra hne
    rcases Nat.lt_or_ge i j with hlt | hge
    · exact chain_nodup sub v m hmin hP i j hlt (List.mem_range.mp hj) hf
    · have hlt : j < i := by omega
      exact chain_nodup sub v m hmin hP j i hlt (List.mem_range.mp hi) hf.symm
  have hsubset : ((List.range m).map (fun i => followN sub i v)).toFinset ⊆
      (sub.map Prod.fst).toFinset := by
    intro x hx
    rw [List.mem_toFinset] at hx ⊢
    obtain ⟨i, hi, rfl⟩ := List.mem_map.mp hx
    have him := hmin i (List.mem_range.mp hi)
    cases hlook : lookupN sub (followN sub i v) with
    | none => exact absurd hlook him
    | some w => exact lookupN_mem_keys sub _ w hlook
  calc m = ((List.range m).map (fun i => followN sub i v)).length := by simp
    _ = ((List.range m).map (fun i => followN sub i v)).toFinset.card :=
        (List.toFinset_card_of_nodup hnd).symm
    _ ≤ (sub.map Prod.fst).toFinset.card := Finset.card_le_card hsubset
    _ ≤ (sub.map Prod.fst).length := List.toFinset_card_le _
    _ = sub.length := by simp

theorem reaches_terminal_step (sub : SubMap) (k v t : Nat)
    (h : lookupN sub k = some v) (hr : ReachesTerminal sub v t) :
    ReachesTerminal sub k t := by
  obtain ⟨n, hn, ht⟩ := hr
  refine ⟨n + 1, ?_, ht⟩
  rw [followN_step sub k v h]
  exact hn

theorem add_to_cache_props (sub : SubMap) :
    ∀ fuel cache k cache', CacheOK sub cache →
      add_to_cache sub fuel cache k = some cache' →
      CacheOK sub cache' ∧
      (∀ j t, lookupN cache j = some t → lookupN cache' j = some t) ∧
      (∀ j, (lookupN cache' j).isSome →
        (lookupN cache j).isSome ∨ (lookupN sub j).isSome) ∧
      ((lookupN sub k).isSome → (lookupN cache' k).isSome) := by
  intro fuel
  induction fuel with
  | zero =>
    intro cache k cache' _ h
    exact Option.noConfusion h
  | succ fuel ih =>
    intro cache k cache' hOK h
    simp only [add_to_cache] at h
    cases hck : lookupN cache k with
    | some t =>
      simp only [hck] at h
      injection h with hcc
      subst hcc
      exact ⟨hOK, fun j t h => h, fun j h => Or.inl h, fun _ => by simp [hck]⟩
    | none =>
      simp only [hck] at h
      cases hsk : lookupN sub k with
      | none =>
        simp only [hsk] at h
        injection h with hcc
        subst hcc
        refine ⟨hOK, fun j t h => h, fun j h => Or.inl h, ?_⟩
        intro habs
        exact absurd habs (by simp)
      | some v =>
        simp only [hsk] at h
        cases hrec : add_to_cache sub fuel cache v with
        | none =>
          simp only [hrec] at h
          exact Option.noConfusion h
        | some cache1 =>
          simp only [hrec] at h
          injection h with hcc
          obtain ⟨hOK1, hpres1, hdom1, hcov1⟩ := ih cache v cache1 hOK hrec
          subst hcc
          refine ⟨?_, ?_, ?_, ?_⟩
          · intro j t hj
            simp only [lookupN] at hj
            by_cases hkj : k = j
            · rw [if_pos hkj] at hj
              injection hj with ht
              subst hkj
              subst ht
              cases hc1v : lookupN cache1 v with
              | some t0 =>
                exact reaches_terminal_step sub k v t0 hsk (hOK1 v t0 hc1v)
              | none =>
                have hnv : ¬(lookupN cache1 v).isSome = true := by simp [hc1v]
                have hsv : lookupN sub v = none := by
                  cases hsv : lookupN sub v with
                  | none => rfl
                  | some w2 => exact absurd (hcov1 (by simp [hsv])) hnv
                refine ⟨1, ?_, hsv⟩
                rw [followN_step sub k v hsk]
                rfl
            · rw [if_neg hkj] at hj
              exact hOK1 j t hj
          · intro j t hjc
            have hjk : ¬k = j := by
              intro hh
              rw [← hh, hck] at hjc
              exact Option.noConfusion hjc
            simp only [lookupN, if_neg hjk]
            exact hpres1 j t hjc
          · intro j hj
            by_cases hkj : k = j
            · subst hkj
              right
              simp [hsk]
            · simp only [lookupN, if_neg hkj] at hj
              exact hdom1 j hj
          · intro _
            simp [lookupN]

theorem add_to_cache_complete (sub : SubMap) :
    ∀ m fuel cache k, CacheOK sub cache → m < fuel →
      lookupN sub (followN sub m k) = none →
      (∀ j < m, lookupN sub (followN sub j k) ≠ none) →
      ∃ cache', add_to_cache sub fuel cache k = some cache' := by
  intro m
  induction m with
  | zero =>
    intro fuel cache k hOK hflt hP hmin
    cases fuel with
    | zero => omega
    | succ fuel =>
      cases hck : lookupN cache k with
      | some t => exact ⟨cache, by simp [add_to_cache, hck]⟩
      | none =>
        have hP' : lookupN sub k = none := hP
        exact ⟨cache, by simp [add_to_cache, hck, hP']⟩
  | succ m ih =>
    intro fuel cache k hOK hflt hP hmin
    cases fuel with
    | zero => omega
    | succ fuel =>
      cases hck : lookupN cache k with
      | some t => exact ⟨cache, by simp [add_to_cache, hck]⟩
      | none =>
        have h0 := hmin 0 (Nat.succ_pos m)
        have hsk : ∃ w, lookupN sub k = some w := by
          cases hs : lookupN sub k with
          | none => exact absurd (show lookupN sub (followN sub 0 k) = none from hs) h0
          | some w => exact ⟨w, rfl⟩
        obtain ⟨w, hsk⟩ := hsk
        have hPw : lookupN sub (followN sub m w) = none := by
          rw [← followN_step sub k w hsk]
          exact hP
        have hminw : ∀ j < m, lookupN sub (followN sub j w) ≠ none := by
          intro j hj
          rw [← followN_step sub k w hsk]
          exact hmin (j + 1) (by omega)
        obtain ⟨cache1, hc1⟩ := ih fuel cache w hOK (by omega) hPw hminw
        exact ⟨(k, (lookupN cache1 w).getD w) :: cache1,
          by simp [add_to_cache, hck, hsk, hc1]⟩

theorem canonFold_acyclic (sub : SubMap) (hA : Acyclic sub) :
    ∀ (ks : List Nat) (cache : SubMap), CacheOK sub cache →
      ∃ cache', canonFold sub (sub.length + 1) ks cache = some cache' ∧
        CacheOK sub cache' ∧
        (∀ j t, lookupN cache j = some t → lookupN cache' j = some t) ∧
        (∀ j, (lookupN cache' j).isSome →
          (lookupN cache j).isSome ∨ (lookupN sub j).isSome) ∧
        (∀ k ∈ ks, (lookupN sub k).isSome → (lookupN cache' k).isSome) := by
  intro ks
  induction ks with
  | nil =>
    intro cache hOK
    exact ⟨cache, rfl, hOK, fun j t h => h, fun j h => Or.inl h, by simp⟩
  | cons k ks ih =>
    intro cache hOK
    have hex := hA k
    have hfind := Nat.find_spec hex
    have hmin : ∀ j < Nat.find hex, lookupN sub (followN sub j k) ≠ none :=
      fun j hj => Nat.find_min hex hj
    have hle : Nat.find hex ≤ sub.length := chainlen_le sub k _ hmin hfind
    obtain ⟨cache1, hc1⟩ := add_to_cache_complete sub (Nat.find hex)
      (sub.length + 1) cache k hOK (by omega) hfind hmin
    obtain ⟨hOK1, hpres1, hdom1, hcov1⟩ :=
      add_to_cache_props sub _ cache k cache1 hOK hc1
    obtain ⟨cache', hc', hOK', hpres', hdom', hcov'⟩ := ih cache1 hOK1
    refine ⟨cache', ?_, hOK', ?_, ?_, ?_⟩
    · simp [canonFold, hc1, hc']
    · exact fun j t h => hpres' j t (hpres1 j t h)
    · intro j hj
      rcases hdom' j hj with h1 | h1
      · exact hdom1 j h1
      · exact Or.inr h1
    · intro kk hkk hsk
      rcases List.mem_cons.mp hkk with hkkk | hkkt
      · subst hkkk
        have h1 := hcov1 hsk
        cases hc1k : lookupN cache1 kk with
        | none =>
          rw [hc1k] at h1
          exact absurd h1 (by simp)
        | some t =>
          have h2 := hpres' kk t hc1k
          simp [h2]
      · exact hcov' kk hkkt hsk

theorem canonicalize_sub_acyclic (sub : SubMap) (hA : Acyclic sub) :
    ∃ res, canonicalize_sub (sub.length + 1) sub = some res ∧
      (∀ k, (lookupN res k).isSome ↔ (lookupN sub k).isSome) ∧
      (∀ k v, lookupN sub k = some v → ∃ t, lookupN res k = some t ∧
        ReachesTerminal sub k t ∧ ReachesTerminal sub v t) ∧
      (∀ k t, lookupN res k = some t → lookupN res t = none) := by
  obtain ⟨res, hres, hOK, hpres, hdom, hcov⟩ :=
    canonFold_acyclic sub hA (sub.map Prod.fst) []
      (fun k t h => by simp [lookupN] at h)
  have hiff : ∀ k, (lookupN res k).isSome ↔ (lookupN sub k).isSome := by
    intro k
    constructor
    · intro h
      rcases hdom k h with h1 | h1
      · simp [lookupN] at h1
      · exact h1
    · intro h
      cases hsk : lookupN sub k with
      | none =>
        rw [hsk] at h
        exact absurd h (by simp)
      | some v => exact hcov k (lookupN_mem_keys sub k v hsk) (by simp [hsk])
  refine ⟨res, hres, hiff, ?_, ?_⟩
  · intro k v hkv
    have hs : (lookupN res k).isSome := (hiff k).mpr (by simp [hkv])
    cases hrk : lookupN res k with
    | none =>
      rw [hrk] at hs
      exact absurd hs (by simp)
    | some t =>
      have hrt := hOK k t hrk
      refine ⟨t, rfl, hrt, ?_⟩
      obtain ⟨n, hn, hterm⟩ := hrt
      cases n with
      | zero =>
        exfalso
        rw [followN_zero] at hn
        subst hn
        rw [hterm] at hkv
        exact Option.noConfusion hkv
      | succ n =>
        refine ⟨n, ?_, hterm⟩
        rw [← followN_step sub k v hkv]
        exact hn
  · intro k t hkt
    obtain ⟨n, hn, hterm⟩ := hOK k t hkt
    cases hrt : lookupN res t with
    | none => rfl
    | some t2 =>
      have h1 : (lookupN sub t).isSome := (hiff t).mp (by simp [hrt])
      rw [hterm] at h1
      exact absurd h1 (by simp)

theorem add_to_cache_diverge (sub : SubMap) :
    ∀ fuel v cache, (∀ n, lookupN sub (followN sub n v) ≠ none) →
      CacheOK sub cache → add_to_cache sub fuel cache v = none := by
  intro fuel
  induction fuel with
  | zero => intro v cache _ _; rfl
  | succ fuel ih =>
    intro v cache hbad hOK
    have h0 := hbad 0
    cases hsv : lookupN sub v with
    | none => exact absurd (show lookupN sub (followN sub 0 v) = none from hsv) h0
    | some w =>
      have hcv : lookupN cache v = none := by
        cases hcv : lookupN cache v with
        | none => rfl
        | some t =>
          obtain ⟨n, hn, hterm⟩ := hOK v t hcv
          exact absurd (by rw [hn]; exact hterm) (hbad n)
      have hbadw : ∀ n, lookupN sub (followN sub n w) ≠ none := by
        intro n
        rw [← followN_step sub v w hsv]
        exact hbad (n + 1)
      simp [add_to_cache, hcv, hsv, ih w cache hbadw hOK]

theorem canonFold_diverge (sub : SubMap) (fuel : Nat) (v : Nat)
    (hbad : ∀ n, lookupN sub (followN sub n v) ≠ none) :
    ∀ ks cache, v ∈ ks → CacheOK sub cache →
      canonFold sub fuel ks cache = none := by
  intro ks
  induction ks with
  | nil =>
    intro cache h _
    simp at h
  | cons k ks ih =>
    intro cache hmem hOK
    by_cases hkv : k = v
    · subst hkv
      simp [canonFold, add_to_cache_diverge sub fuel k cache hbad hOK]
    · cases hadd : add_to_cache sub fuel cache k with
      | none => simp [canonFold, hadd]
      | some cache1 =>
        have hOK1 := (add_to_cache_props sub fuel cache k cache1 hOK hadd).1
        have hmem' : v ∈ ks := by
          rcases List.mem_cons.mp hmem with h | h
          · exact absurd h.symm hkv
          · exact h
        simp [canonFold, hadd, ih cache1 hmem' hOK1]

theorem not_acyclic_self (sub : SubMap) (v : Nat) (h : lookupN sub v = some v) :
    ¬Acyclic sub := by
  intro hA
  obtain ⟨n, hn⟩ := hA v
  have hfix : ∀ m, followN sub m v = v := by
    intro m
    induction m with
    | zero => rfl
    | succ m ih =>
      rw [followN_step sub v v h]
      exact ih
  rw [hfix n, h] at hn
  exact Option.noConfusion hn

/-- C3: on an acyclic substitution map, `canonicalize` succeeds and
returns a map with the same outer and inner key sets in which every
binding points directly to the terminal of its chain — equivalently every
edge of the result has length 1 (the target of any result binding is not
itself bound). -/
theorem c3_canonicalize (S : Substitutions) (hA : ∀ p ∈ S, Acyclic p.2) :
    ∃ S', canonicalize S = some S' ∧
      (∀ x, (lookupSubs S' x).isSome ↔ (lookupSubs S x).isSome) ∧
      (∀ x sub, lookupSubs S x = some sub →
        ∃ sub', lookupSubs S' x = some sub' ∧
          (∀ k, (lookupN sub' k).isSome ↔ (lookupN sub k).isSome) ∧
          (∀ k v, lookupN sub k = some v → ∃ t, lookupN sub' k = some t ∧
            ReachesTerminal sub k t ∧ ReachesTerminal sub v t) ∧
          (∀ k t, lookupN sub' k = some t → lookupN sub' t = none)) := by
  induction S with
  | nil =>
    exact ⟨[], rfl, fun x => Iff.rfl, fun x sub h => by simp [lookupSubs] at h⟩
  | cons p t ih =>
    obtain ⟨x0, sub0⟩ := p
    have hA0 : Acyclic sub0 := hA (x0, sub0) (List.mem_cons_self _ _)
    have hAt : ∀ q ∈ t, Acyclic q.2 := fun q hq => hA q (List.mem_cons_of_mem _ hq)
    obtain ⟨res0, hres0, hiff0, hval0, hedge0⟩ := canonicalize_sub_acyclic sub0 hA0
    obtain ⟨S', hS', hiffS, hvalS⟩ := ih hAt
    refine ⟨(x0, res0) :: S', ?_, ?_, ?_⟩
    · simp [canonicalize, hres0, hS']
    · intro x
      by_cases hx : x0 = x
      · simp [lookupSubs, hx]
      · simp [lookupSubs, hx, hiffS x]
    · intro x sub hsx
      by_cases hx : x0 = x
      · subst hx
        simp only [lookupSubs, if_pos rfl] at hsx ⊢
        injection hsx with hsub
        subst hsub
        exact ⟨res0, rfl, hiff0, hval0, hedge0⟩
      · simp only [lookupSubs, if_neg hx] at hsx ⊢
        exact hvalS x sub hsx

/-- A concrete acyclic inner map `1 ↦ 2 ↦ 3`. -/
theorem acyclic_subC3inner : Acyclic [(1, 2), (2, 3)] := by
  intro v
  refine ⟨3, ?_⟩
  by_cases h1 : v = 1
  · subst h1
    decide
  · by_cases h2 : v = 2
    · subst h2
      decide
    · have h1' : ¬(1 = v) := fun h => h1 h.symm
      have h2' : ¬(2 = v) := fun h => h2 h.symm
      have hv : lookupN [(1, 2), (2, 3)] v = none := by
        simp [lookupN, h1', h2']
      rw [followN_terminal _ _ hv]
      exact hv

/-- Witness for C3 at the concrete acyclic map `subC3`. -/
theorem c3_witness :
    ∃ S', canonicalize subC3 = some S' ∧
      (∀ x, (lookupSubs S' x).isSome ↔ (lookupSubs subC3 x).isSome) ∧
      (∀ x sub, lookupSubs subC3 x = some sub →
        ∃ sub', lookupSubs S' x = some sub' ∧
          (∀ k, (lookupN sub' k).isSome ↔ (lookupN sub k).isSome) ∧
          (∀ k v, lookupN sub k = some v → ∃ t, lookupN sub' k = some t ∧
            ReachesTerminal sub k t ∧ ReachesTerminal sub v t) ∧
          (∀ k t, lookupN sub' k = some t → lookupN sub' t = none)) :=
  c3_canonicalize subC3
    (fun p hp => by
      have hp' : p = (.call 1, [(1, 2), (2, 3)]) := List.mem_singleton.mp hp
      rw [hp']
      exact acyclic_subC3inner)

/-- C10: `canonicalize_sub` terminates only on acyclic per-identifier
maps — on any map with a reachable cycle the recursion exhausts every
fuel bound, i.e. the source recursion never terminates; and `register`
can create a self-edge `v ↦ v` (when the looked-up redirect of the
target equals the inserted key), after which `canonicalize` diverges. -/
theorem c10_canonicalize_termination :
    (∀ sub : SubMap, ¬Acyclic sub → ∀ fuel, canonicalize_sub fuel sub = none) ∧
    register regS0 regA regB = [(.call 7, [(5, 3), (3, 3)])] ∧
    lookupSub (register regS0 regA regB) (.call 7) 3 = some 3 ∧
    (¬Acyclic [(5, 3), (3, 3)]) ∧
    canonicalize (register regS0 regA regB) = none := by
  refine ⟨?_, rfl, rfl, not_acyclic_self _ 3 rfl, rfl⟩
  intro sub hA fuel
  rw [Acyclic] at hA
  push_neg at hA
  obtain ⟨v, hbad⟩ := hA
  have hbad' : ∀ n, lookupN sub (followN sub n v) ≠ none := hbad
  have h0 := hbad' 0
  have hv : v ∈ sub.map Prod.fst := by
    cases hsv : lookupN sub v with
    | none => exact absurd (show lookupN sub (followN sub 0 v) = none from hsv) h0
    | some w => exact lookupN_mem_keys sub v w hsv
  exact canonFold_diverge sub fuel v hbad' (sub.map Prod.fst) [] hv
    (fun k t h => by simp [lookupN] at h)

/-- Witness for C10: a concrete self-edge map never canonicalizes, at any
fuel. -/
theorem c10_witness : canonicalize_sub 5 [(3, 3)] = none :=
  c10_canonicalize_termination.1 [(3, 3)] (not_acyclic_self _ 3 rfl) 5
